import Mathlib

/-!
Verification of the alignment / segment-reconciliation engine of the
Audio_to_Video_Maker repository.

Shallow embedding conventions:
* Python floats are modelled as rationals (`ℚ`); `round(x, 2)` is modelled by
  `round2` below (round to the nearest hundredth, halves away from the exact
  Python tie-breaking, which never matters for the statements proved here
  because every relevant constant is an exact multiple of `1/100`).
* `Word` models the dict `{"word": ..., "start": ..., "end": ...}` and
  `Segment` the dict `{"text": ..., "start": ..., "end": ..., "words": [...]}`.
  `end` is a Lean keyword, so the field is called `stop`.
* Python's stable `list.sort(key=lambda w: w["start"])` is modelled by
  `List.insertionSort wordLE`: a stable sort is determined uniquely by the
  key order, and Mathlib's insertion sort is stable for `wordLE`.
* Python's `str.split()` / `re.findall(r'\S+', text)` on the lyric strings
  appearing here (single-space separated) is modelled by `pySplit`.
* Dictionary accesses with `.get(key, default)` are modelled with total
  structure fields: the claims under study never hinge on missing keys.
-/

/-- A word with its time window, modelling `{"word": w, "start": s, "end": e}`. -/
structure Word where
  word : String
  start : ℚ
  stop : ℚ
deriving DecidableEq, Repr

/-- A lyric segment, modelling `{"text": t, "start": s, "end": e, "words": [...]}`. -/
structure Segment where
  text : String
  start : ℚ
  stop : ℚ
  words : List Word
deriving DecidableEq, Repr

/-- Python's `round(x, 2)`: round to the nearest multiple of `1/100`. -/
def round2 (x : ℚ) : ℚ := (round (100 * x) : ℤ) / 100

/-- `x` is representable with two decimals (the canonical persisted form uses
seconds with 2 decimals). -/
def twoDec (x : ℚ) : Prop := round2 x = x

/-- The sort key used by `words.sort(key=lambda w: w["start"])`. -/
def wordLE (a b : Word) : Prop := a.start ≤ b.start

instance : DecidableRel wordLE := fun a b => inferInstanceAs (Decidable (a.start ≤ b.start))

instance : IsTotal Word wordLE := ⟨fun a b => le_total a.start b.start⟩

instance : IsTrans Word wordLE := ⟨fun _ _ _ h1 h2 => le_trans h1 h2⟩

/-- Split a string into maximal runs of non-space characters, like Python's
`text.split()` / `re.findall(r'\S+', text)` on the space-separated lyric
strings handled by this code. -/
def pySplitChars : List Char → List Char → List String
  | [], [] => []
  | [], acc => [String.mk acc.reverse]
  | c :: rest, acc =>
    if c = ' ' then
      if acc = [] then pySplitChars rest []
      else String.mk acc.reverse :: pySplitChars rest []
    else pySplitChars rest (c :: acc)

/-- Python `text.split()` restricted to space separators. -/
def pySplit (s : String) : List String := pySplitChars s.toList []

/-! ### gemini_align.py: `_clamp_words` (lines 576-586) -/

/-- `ws = max(seg_start, min(w["start"], seg_end))` in `_clamp_words`. -/
def cw_ws (s e : ℚ) (w : Word) : ℚ := max s (min w.start e)

/-- `we = max(ws + 0.05, min(w["end"], seg_end))` in `_clamp_words`. -/
def cw_we0 (s e : ℚ) (w : Word) : ℚ := max (cw_ws s e w + 5/100) (min w.stop e)

/-- `if we - ws > 1.5: we = round(ws + 1.5, 2)` in `_clamp_words`. -/
def cw_we (s e : ℚ) (w : Word) : ℚ :=
  if cw_we0 s e w - cw_ws s e w > 3/2 then round2 (cw_ws s e w + 3/2) else cw_we0 s e w

/-- `_clamp_words(gemini_words, seg_start, seg_end)` from gemini_align.py:
clamp each word into the segment window, cap its duration at 1.5 s, round to
2 decimals, then (stably) sort by start. -/
def clamp_words (gemini_words : List Word) (s e : ℚ) : List Word :=
  (gemini_words.map (fun w => ⟨w.word, round2 (cw_ws s e w), round2 (cw_we s e w)⟩)).insertionSort wordLE

/-! ### gemini_align.py: `_even_words` (lines 589-600) -/

/-- `slot = (end - start) / max(len(text_words), 1)` in `_even_words`. -/
def even_slot (text : String) (s e : ℚ) : ℚ :=
  (e - s) / ((max (pySplit text).length 1 : ℕ) : ℚ)

/-- `_even_words(text, start, end)` from gemini_align.py: evenly distributed
word timestamps over the window, each word shortened by 0.03 s. -/
def even_words (text : String) (s e : ℚ) : List Word :=
  (pySplit text).enum.map (fun p =>
    ⟨p.2, round2 (s + (p.1 : ℚ) * even_slot text s e),
      round2 (s + ((p.1 : ℚ) + 1) * even_slot text s e - 3/100)⟩)

/-! ### gemini_align.py: repetition expansion in `align_and_split_lyrics`
(lines 519-553).  `detect_chorus_repetitions` (lines 771-808) uses the same
window arithmetic `round(start + r*rep_dur, 2)` / `round(start + (r+1)*rep_dur, 2)`. -/

/-- `reps = max(1, min(info.get("repetitions", 1), 10))`. -/
def rep_count (reps_raw : ℤ) : ℤ := max 1 (min reps_raw 10)

/-- `rep_start = round(seg["start"] + r * rep_dur, 2)`. -/
def rep_window_start (seg : Segment) (n : ℤ) (r : ℕ) : ℚ :=
  round2 (seg.start + (r : ℚ) * ((seg.stop - seg.start) / (n : ℚ)))

/-- `rep_end = round(seg["start"] + (r + 1) * rep_dur, 2)`. -/
def rep_window_stop (seg : Segment) (n : ℤ) (r : ℕ) : ℚ :=
  round2 (seg.start + ((r : ℚ) + 1) * ((seg.stop - seg.start) / (n : ℚ)))

/-- The per-segment body of the expansion loop in `align_and_split_lyrics`:
clamp the oracle repetition count to `[1, 10]`; for `reps > 1` split the
window into `reps` equal sub-windows (oracle words clamped into the first,
even words synthesized for the rest); otherwise keep the segment, applying
the oracle word timestamps when present. -/
def split_repetitions (seg : Segment) (reps_raw : ℤ) (gemini_words : List Word) : List Segment :=
  if 1 < rep_count reps_raw then
    (List.range (rep_count reps_raw).toNat).map (fun r =>
      ⟨seg.text, rep_window_start seg (rep_count reps_raw) r,
        rep_window_stop seg (rep_count reps_raw) r,
        if r = 0 ∧ gemini_words ≠ [] then
          clamp_words gemini_words (rep_window_start seg (rep_count reps_raw) r)
            (rep_window_stop seg (rep_count reps_raw) r)
        else
          even_words seg.text (rep_window_start seg (rep_count reps_raw) r)
            (rep_window_stop seg (rep_count reps_raw) r)⟩)
  else if gemini_words ≠ [] then
    [⟨seg.text, seg.start, seg.stop, clamp_words gemini_words seg.start seg.stop⟩]
  else [seg]

/-! ### gemini_align.py: the clamp loop of `full_pipeline_gemini` (lines 355-369) -/

/-- `start = min(max(item.get("start", 0), 0), audio_duration)`. -/
def fpc_start (audioLen : ℚ) (item : Segment) : ℚ := min (max item.start 0) audioLen

/-- `end = min(max(item.get("end", start + 0.1), start + 0.1), audio_duration)`. -/
def fpc_stop (audioLen : ℚ) (item : Segment) : ℚ :=
  min (max item.stop (fpc_start audioLen item + 1/10)) audioLen

/-- `w["start"] = round(max(start, min(w.get("start", start), end)), 2)`. -/
def fpc_ws (s e : ℚ) (w : Word) : ℚ := round2 (max s (min w.start e))

/-- `w["end"] = round(max(w["start"] + 0.05, min(w.get("end", end), end)), 2)`. -/
def fpc_we0 (s e : ℚ) (w : Word) : ℚ := round2 (max (fpc_ws s e w + 5/100) (min w.stop e))

/-- `if w["end"] - w["start"] > 1.5: w["end"] = round(w["start"] + 1.5, 2)`. -/
def fpc_we (s e : ℚ) (w : Word) : ℚ :=
  if fpc_we0 s e w - fpc_ws s e w > 3/2 then round2 (fpc_ws s e w + 3/2) else fpc_we0 s e w

/-- The word mutation of the inline clamp in `full_pipeline_gemini`. -/
def fpc_word (s e : ℚ) (w : Word) : Word := ⟨w.word, fpc_ws s e w, fpc_we s e w⟩

/-- The serialization loop of `full_pipeline_gemini` (lines 355-369): clamp
segment boundaries into `[0, audio_duration]`, force `end` at least
`start + 0.1` before the duration cap, clamp the words, round everything to
2 decimals.  The subsequent `_transfer_punctuation` call only rewrites word
and segment text, never timestamps, so it is omitted here. -/
def full_pipeline_clamp (audioLen : ℚ) (data : List Segment) : List Segment :=
  data.map (fun item =>
    ⟨item.text, round2 (fpc_start audioLen item), round2 (fpc_stop audioLen item),
      item.words.map (fpc_word (fpc_start audioLen item) (fpc_stop audioLen item))⟩)

/-! ### text_refinery.py: `_sanitize_word_timestamps` (lines 119-183) -/

/-- The final cap loop: `if w["end"] - w["start"] > 3.0: w["end"] = round(w["start"] + 3.0, 2)`. -/
def capLong (w : Word) : Word :=
  if 3 < w.stop - w.start then ⟨w.word, w.start, round2 (w.start + 3)⟩ else w

/-- `actual_singing_start = max(second_word_start - 0.5, line_start)`. -/
def actual_start (line_start second_start : ℚ) : ℚ := max (second_start - 1/2) line_start

/-- The redistribution loop: evenly spaced starts from `actual` with slot
`word_slot`, ends capped by `min(word_slot*0.9, 3.0)` and clamped to the
segment end. -/
def redistribute_words (line_stop actual slot : ℚ) (ws : List Word) : List Word :=
  ws.enum.map (fun p =>
    ⟨p.2.word, round2 (actual + (p.1 : ℚ) * slot),
      min (round2 (round2 (actual + (p.1 : ℚ) * slot) + min (slot * (9/10)) 3)) line_stop⟩)

/-- The word-repair core of one `_sanitize_word_timestamps` iteration,
applied to the start-sorted word list of a segment `[line_start, line_stop]`
with positive duration: if the first word exceeds 3 s and there is a second
word bunched past half the segment, redistribute evenly (skipping the final
cap loop, as the Python `continue` does); otherwise cap the first word when
too long and then cap every word at 3 s. -/
def sanitize_words (ls le : ℚ) : List Word → List Word
  | [] => []
  | [w] => [capLong w]
  | first :: second :: rest =>
    if 3 < first.stop - first.start then
      if (le - ls) * (1/2) < second.start - ls then
        redistribute_words le (actual_start ls second.start)
          ((le - actual_start ls second.start) / (((first :: second :: rest).length : ℕ) : ℚ))
          (first :: second :: rest)
      else
        (⟨first.word, first.start, round2 (first.start + 3)⟩ :: second :: rest).map capLong
    else (first :: second :: rest).map capLong

/-- One iteration of the segment loop of `_sanitize_word_timestamps`:
skip segments with no words or non-positive duration; sort words by start
(stably) and repair them with `sanitize_words`.  The Python code mutates in
place; this is the same computation as a pure function. -/
def sanitize_segment (line : Segment) : Segment :=
  if line.words = [] then line
  else if line.stop - line.start <= 0 then line
  else ⟨line.text, line.start, line.stop,
    sanitize_words line.start line.stop (line.words.insertionSort wordLE)⟩

/-- `_sanitize_word_timestamps(lyrics)` from text_refinery.py. -/
def sanitize_word_timestamps (lyrics : List Segment) : List Segment :=
  lyrics.map sanitize_segment

/-! ### nemo_align.py: `_map_words_to_lines` (lines 335-376) -/

/-- The words assigned to one lyric line: the next `len(clean_line.split())`
aligned words, re-attaching the original (punctuated) word text positionally
and rounding the timestamps to 2 decimals. -/
def line_words (orig clean : String) (words : List Word) : List Word :=
  (words.take (pySplit clean).length).enum.map (fun p =>
    ⟨(pySplit orig).getD p.1 p.2.word, round2 p.2.start, round2 p.2.stop⟩)

/-- The line loop of `_map_words_to_lines`: one output segment per line,
consuming words in order; a line with no words gets the placeholder
`[prev_end + 0.5, prev_end + 3.0]`.  `prev_stop` carries
`segments[-1]["end"] if segments else 0`. -/
def map_lines_go : List (String × String) → List Word → ℚ → List Segment
  | [], _, _ => []
  | (orig, clean) :: rest, words, prev_stop =>
    if line_words orig clean words = [] then
      ⟨orig, round2 (prev_stop + 1/2), round2 (prev_stop + 3), []⟩ ::
        map_lines_go rest (words.drop (pySplit clean).length) (round2 (prev_stop + 3))
    else
      ⟨orig, ((line_words orig clean words).head?.map Word.start).getD 0,
        ((line_words orig clean words).getLast?.map Word.stop).getD 0,
        line_words orig clean words⟩ ::
        map_lines_go rest (words.drop (pySplit clean).length)
          (((line_words orig clean words).getLast?.map Word.stop).getD 0)

/-- `_map_words_to_lines(all_words, original_lines, clean_lines)` from
nemo_align.py. -/
def map_words_to_lines (all_words : List Word) (original_lines clean_lines : List String) :
    List Segment :=
  map_lines_go (original_lines.zip clean_lines) all_words 0

/-! ### nemo_align.py: `_ctc_forced_align` (lines 56-154) -/

/-- The large negative sentinel `NEG_INF = -1e30` used for unreachable DP
states. -/
def NEG_INF : ℚ := -(10^30)

/-- One alignment entry `(token_idx, start_frame, end_frame)`. -/
structure CtcEntry where
  tok : ℕ
  startF : ℕ
  stopF : ℕ
deriving DecidableEq, Repr

/-- `expanded = [blank, t0, blank, t1, blank, ...]`. -/
def ctc_expanded (targets : List ℕ) (blank_id : ℕ) : List ℕ :=
  blank_id :: targets.flatMap (fun t => [t, blank_id])

/-- The accumulated transition maximum: stay at `s`; from `s-1` when
`0 < s`; from `s-2` when `1 < s` and the tokens at `s` and `s-2` differ,
exactly in the order the Python loop takes the maxima. -/
def ctc_prevmax (a_s a_sm1 a_sm2 : ℚ) (g1 g2 : Prop) [Decidable g1] [Decidable g2] : ℚ :=
  if g2 then max (if g1 then max a_s a_sm1 else a_s) a_sm2
  else if g1 then max a_s a_sm1 else a_s

/-- The DP table `alpha[t][s]` of `_ctc_forced_align`.  Frame 0 initializes
states 0 and 1 (the latter only when `L > 1`); all other states hold the
sentinel; subsequent rows follow the CTC transition rule and are only
computed for `s < L` (the numpy array has exactly `L` columns). -/
def ctc_alpha (lp : ℕ → ℕ → ℚ) (expanded : List ℕ) : ℕ → ℕ → ℚ
  | 0, s =>
    if s = 0 then lp 0 (expanded.getD 0 0)
    else if s = 1 ∧ 1 < expanded.length then lp 0 (expanded.getD 1 0)
    else NEG_INF
  | t+1, s =>
    if s < expanded.length then
      ctc_prevmax (ctc_alpha lp expanded t s) (ctc_alpha lp expanded t (s-1))
        (ctc_alpha lp expanded t (s-2)) (0 < s)
        (1 < s ∧ expanded.getD s 0 ≠ expanded.getD (s-2) 0)
        + lp (t+1) (expanded.getD s 0)
    else NEG_INF

/-- `best_s = L-1 if alpha[T-1][L-1] >= alpha[T-1][L-2] else L-2`. -/
def ctc_best_s (lp : ℕ → ℕ → ℚ) (expanded : List ℕ) (T : ℕ) : ℕ :=
  if ctc_alpha lp expanded (T-1) (expanded.length - 2) ≤ ctc_alpha lp expanded (T-1) (expanded.length - 1)
  then expanded.length - 1 else expanded.length - 2

/-- The first comparison of the backtracking step: prefer `s`, switch to
`s-1` only on strictly larger score (Python `max` keeps the first maximal
candidate). -/
def ctc_pick1 (lp : ℕ → ℕ → ℚ) (expanded : List ℕ) (t s : ℕ) : ℕ :=
  if 0 < s ∧ ctc_alpha lp expanded t s < ctc_alpha lp expanded t (s-1) then s - 1 else s

/-- One backtracking step at frame `t` from state `s`. -/
def ctc_back_step (lp : ℕ → ℕ → ℚ) (expanded : List ℕ) (t s : ℕ) : ℕ :=
  if 1 < s ∧ expanded.getD s 0 ≠ expanded.getD (s-2) 0 ∧
      ctc_alpha lp expanded t (ctc_pick1 lp expanded t s) < ctc_alpha lp expanded t (s-2)
  then s - 2 else ctc_pick1 lp expanded t s

/-- The state of the backtracked path, indexed from the end:
`ctc_state k` is the state at frame `T-1-k`. -/
def ctc_state (lp : ℕ → ℕ → ℚ) (expanded : List ℕ) (T : ℕ) : ℕ → ℕ
  | 0 => ctc_best_s lp expanded T
  | k+1 => ctc_back_step lp expanded (T-2-k) (ctc_state lp expanded T k)

/-- The chronological path `[(t, state at frame t)]`. -/
def ctc_path (lp : ℕ → ℕ → ℚ) (expanded : List ℕ) (T : ℕ) : List (ℕ × ℕ) :=
  (List.range T).map (fun t => (t, ctc_state lp expanded T (T - 1 - t)))

/-- One iteration of the token-extraction loop over the enumerated path.
State: `(alignments, current_token_state, start_frame)`. -/
def ctc_extract_step (st : List CtcEntry × Option ℕ × ℕ) (ts : ℕ × ℕ) :
    List CtcEntry × Option ℕ × ℕ :=
  if ts.2 % 2 = 1 then
    if st.2.1 = some ts.2 then st
    else
      match st.2.1 with
      | some c =>
        if c % 2 = 1 then (st.1 ++ [⟨c / 2, st.2.2, ts.1 - 1⟩], some ts.2, ts.1)
        else (st.1, some ts.2, ts.1)
      | none => (st.1, some ts.2, ts.1)
  else
    match st.2.1 with
    | some c =>
      if c % 2 = 1 then (st.1 ++ [⟨c / 2, st.2.2, ts.1 - 1⟩], some ts.2, st.2.2)
      else st
    | none => st

/-- Closing the last open token run after the loop. -/
def ctc_finalize (T : ℕ) (st : List CtcEntry × Option ℕ × ℕ) : List CtcEntry :=
  match st.2.1 with
  | some c => if c % 2 = 1 then st.1 ++ [⟨c / 2, st.2.2, T - 1⟩] else st.1
  | none => st.1

/-- `_ctc_forced_align(log_probs, targets, blank_id)` from nemo_align.py.
`lp t c` is the log-probability matrix entry `log_probs[t][c]` and `T` its
number of frames (the numpy shape argument), for `T ≥ 1`. -/
def ctc_forced_align (lp : ℕ → ℕ → ℚ) (T : ℕ) (targets : List ℕ) (blank_id : ℕ) :
    List CtcEntry :=
  if targets = [] then []
  else
    ctc_finalize T
      ((ctc_path lp (ctc_expanded targets blank_id) T).foldl ctc_extract_step ([], none, 0))

/-- Reachability of DP state `s` at frame `t` from the initial states 0 and 1
through the CTC transitions (the states whose `alpha` value carries no
`NEG_INF` sentinel). -/
def ctc_reach (expanded : List ℕ) : ℕ → ℕ → Prop
  | 0, s => s = 0 ∨ s = 1
  | t+1, s =>
    ctc_reach expanded t s ∨ (0 < s ∧ ctc_reach expanded t (s-1)) ∨
      (1 < s ∧ expanded.getD s 0 ≠ expanded.getD (s-2) 0 ∧ ctc_reach expanded t (s-2))

/-- The extraction fold-state after processing the first `m` frames of the
path `q`. -/
def ctcExtSt (q : ℕ → ℕ) (m : ℕ) : List CtcEntry × Option ℕ × ℕ :=
  ((List.range m).map (fun t => (t, q t))).foldl ctc_extract_step ([], none, 0)

/-- The extraction-loop invariant after `m ≥ 1` processed frames: the closed
entries carry the consecutive token indices `0, 1, ...` with well-formed,
pairwise-disjoint, increasing frame ranges; when the current state is odd, a
run of that state is open since `start_frame`, all closed entries end before
it, and exactly the odd states below the current one are closed.  The
even-state variant records that `current_token_state` is never a stale odd
state. -/
def ctcInv (q : ℕ → ℕ) (m : ℕ) (st : List CtcEntry × Option ℕ × ℕ) : Prop :=
  st.1.map CtcEntry.tok = List.range st.1.length ∧
  (∀ e ∈ st.1, e.startF ≤ e.stopF) ∧
  st.1.Pairwise (fun a b => a.stopF < b.startF) ∧
  (if q (m - 1) % 2 = 1 then
    st.2.1 = some (q (m - 1)) ∧ st.1.length = q (m - 1) / 2 ∧ st.2.2 < m ∧
      ∀ e ∈ st.1, e.stopF < st.2.2
  else
    (∀ c, st.2.1 = some c → c % 2 = 0) ∧ st.1.length = q (m - 1) / 2 ∧
      ∀ e ∈ st.1, e.stopF < m)

/-! ### Helper predicates for the claims -/

/-- The three serialization invariants of the canonical segment array (spec
section 6): ordered by start, positive duration, words inside their segment. -/
def segInvariants (segs : List Segment) : Prop :=
  segs.Pairwise (fun a b => a.start ≤ b.start) ∧
    (∀ s ∈ segs, s.start < s.stop) ∧
    (∀ s ∈ segs, ∀ w ∈ s.words, s.start ≤ w.start ∧ w.start ≤ s.stop ∧
      s.start ≤ w.stop ∧ w.stop ≤ s.stop)

instance (l : List Segment) : Decidable (segInvariants l) := by
  unfold segInvariants
  infer_instance

instance (x : ℚ) : Decidable (twoDec x) := inferInstanceAs (Decidable (round2 x = x))

/-- The placeholder relation of claim C9 between consecutive output segments
of `_map_words_to_lines` (reading `a` as the previous segment): a word-less
line gets the window `[prev_end + 0.5, prev_end + 3.0]`. -/
def placeholderRel (a b : Segment) : Prop :=
  b.words = [] → b.start = a.stop + 1/2 ∧ b.stop = a.stop + 3

/-- Minimum of `w.start` over a word list (0 for the empty list). -/
def minStart : List Word → ℚ
  | [] => 0
  | w :: ws => ws.foldl (fun m x => min m x.start) w.start

/-- Maximum of `w.stop` over a word list (0 for the empty list). -/
def maxStop : List Word → ℚ
  | [] => 0
  | w :: ws => ws.foldl (fun m x => max m x.stop) w.stop

/-! ### Basic facts about `round2` -/

theorem round2_mono : Monotone round2 := by
  intro x y h
  unfold round2
  have : round (100 * x) ≤ round (100 * y) := by
    rw [round_eq, round_eq]
    exact Int.floor_le_floor (by linarith)
  exact div_le_div_of_nonneg_right (by exact_mod_cast this) (by norm_num)

theorem round2_le_round2 {x y : ℚ} (h : x ≤ y) : round2 x ≤ round2 y := round2_mono h

/-- Adding an exact number of hundredths commutes with `round2`. -/
theorem round2_add_cent (x : ℚ) (k : ℤ) : round2 (x + (k : ℚ) / 100) = round2 x + (k : ℚ) / 100 := by
  unfold round2
  have h1 : 100 * (x + (k : ℚ) / 100) = 100 * x + (k : ℚ) := by ring
  rw [h1, round_add_int]
  push_cast
  ring

theorem round2_intCast (n : ℤ) : round2 ((n : ℚ) / 100) = (n : ℚ) / 100 := by
  unfold round2
  rw [show (100 : ℚ) * ((n : ℚ) / 100) = (n : ℚ) by ring, round_intCast]

theorem twoDec_round2 (x : ℚ) : twoDec (round2 x) := by
  unfold twoDec
  rw [show round2 x = ((round (100 * x) : ℤ) : ℚ) / 100 from rfl]
  exact round2_intCast _

/-- A two-decimal quantity passes through `round2` on sums. -/
theorem round2_add_twoDec {a : ℚ} (ha : twoDec a) (y : ℚ) : round2 (a + y) = a + round2 y := by
  have h : a = ((round (100 * a) : ℤ) : ℚ) / 100 := by
    have h0 := ha
    unfold twoDec round2 at h0
    exact h0.symm
  calc round2 (a + y) = round2 (y + ((round (100 * a) : ℤ) : ℚ) / 100) := by
        rw [← h, add_comm]
    _ = round2 y + ((round (100 * a) : ℤ) : ℚ) / 100 := round2_add_cent ..
    _ = a + round2 y := by rw [← h]; ring

theorem round2_abs_sub (x : ℚ) : |round2 x - x| ≤ 1/200 := by
  unfold round2
  have h := abs_sub_round (100 * x)
  rw [abs_sub_comm] at h
  have h2 : ((round (100 * x) : ℤ) : ℚ) / 100 - x = (((round (100 * x) : ℤ) : ℚ) - 100 * x) / 100 := by
    ring
  rw [h2, abs_div, show |(100 : ℚ)| = 100 by norm_num]
  linarith

/-- Specialized shifts used throughout: the constants 0.05, 0.1, 0.5, 1.5 and
3.0 are exact numbers of hundredths. -/
theorem round2_add_150 (x : ℚ) : round2 (x + 3/2) = round2 x + 3/2 := by
  have h := round2_add_cent x 150
  push_cast at h
  rw [show (150 : ℚ)/100 = 3/2 by norm_num] at h
  exact h

theorem round2_add_5 (x : ℚ) : round2 (x + 5/100) = round2 x + 5/100 := by
  have h := round2_add_cent x 5
  push_cast at h
  exact h

theorem round2_add_10 (x : ℚ) : round2 (x + 1/10) = round2 x + 1/10 := by
  have h := round2_add_cent x 10
  push_cast at h
  rw [show (10 : ℚ)/100 = 1/10 by norm_num] at h
  exact h

theorem round2_add_50 (x : ℚ) : round2 (x + 1/2) = round2 x + 1/2 := by
  have h := round2_add_cent x 50
  push_cast at h
  rw [show (50 : ℚ)/100 = 1/2 by norm_num] at h
  exact h

theorem round2_add_300 (x : ℚ) : round2 (x + 3) = round2 x + 3 := by
  have h := round2_add_cent x 300
  push_cast at h
  rw [show (300 : ℚ)/100 = 3 by norm_num] at h
  exact h

/-! ## Claim theorems

Batteries marks the `Rat` field operations `@[irreducible]`; concrete
evaluations below go through `decide`, so restore their default
transparency for this file. -/

attribute [local semireducible] Rat.mul Rat.inv Rat.add Rat.sub Rat.ofScientific


/-- Claim C2 (code bug evidence): for `T = 2 < 2*|targets| - 1 = 3` with
`targets = [1, 1]` and log-probs `[[-1, -1], [-2, -1]]`, no valid CTC path
exists (two equal adjacent tokens need at least 3 frames), yet
`_ctc_forced_align` reports no failure: it returns a non-empty alignment,
a single entry claiming target index 1 occupies frames 0-1 while target
index 0 is silently dropped. -/
theorem C2_failing_input :
    ctc_forced_align (fun t c => if t = 0 then (-1 : ℚ) else if c = 0 then -2 else -1) 2 [1, 1] 0 =
      [⟨1, 0, 1⟩] := by decide

/-- Claim C1 counterexample: the all-`(-10^30)` matrix is a genuine
log-probability matrix (all entries non-positive), `T = 3 ≥ 2*1 + 1` and
`targets = [1]` is non-empty, but the entries collide with the `-1e30`
unreachable-state sentinel, backtracking stays on blank states, and the
aligner returns 0 entries instead of exactly 1. -/
theorem C1_counterexample :
    ctc_forced_align (fun _ _ => -(10 ^ 30 : ℚ)) 3 [1] 0 = [] ∧ ([1] : List ℕ).length = 1 := by
  constructor
  · decide
  · rfl

/-- Claim C4 counterexample: a word lying before its segment start is left
untouched by `_sanitize_word_timestamps`, so the output violates
`segment.start <= word.start`. -/
theorem C4_counterexample :
    ∃ seg ∈ sanitize_word_timestamps [⟨"s", 0, 10, [⟨"w", -5, -9/2⟩]⟩],
      ∃ w ∈ seg.words, w.start < seg.start := by decide

/-- Claim C5 counterexample: with words bunched beyond the segment end the
redistribution slot is negative, the produced starts decrease, and a second
sanitization pass re-sorts them: `sanitize ∘ sanitize ≠ sanitize` there. -/
theorem C5_counterexample :
    sanitize_word_timestamps (sanitize_word_timestamps
        [⟨"s", 0, 10, [⟨"a", 0, 4⟩, ⟨"b", 19, 191/10⟩, ⟨"c", 20, 101/5⟩]⟩]) ≠
      sanitize_word_timestamps
        [⟨"s", 0, 10, [⟨"a", 0, 4⟩, ⟨"b", 19, 191/10⟩, ⟨"c", 20, 101/5⟩]⟩] := by decide

/-- Claim C6 counterexample: the input's first word has duration 4 > 3.0 s,
but because the remaining words are bunched near the segment end the
sanitizer redistributes instead of truncating: no output word keeps the
original start 0 with end 0 + 3. -/
theorem C6_counterexample :
    (∃ w ∈ (⟨"s", 0, 10, [⟨"a", 0, 4⟩, ⟨"b", 9, 19/2⟩]⟩ : Segment).words, 3 < w.stop - w.start) ∧
      ¬ ∃ w ∈ (sanitize_segment ⟨"s", 0, 10, [⟨"a", 0, 4⟩, ⟨"b", 9, 19/2⟩]⟩).words,
          w.start = 0 ∧ w.stop = 0 + 3 := by decide

/-- Claim C7 counterexample: one oracle item at the audio boundary and one
out of order make the serialized array violate all three invariants: the
starts are out of order, the first segment has `end = start`, and its word
ends at 10.05 beyond the segment end 10. -/
theorem C7_counterexample :
    ¬ segInvariants (full_pipeline_clamp 10 [⟨"a", 10, 11, [⟨"w", 10, 51/5⟩]⟩, ⟨"b", 1, 2, []⟩]) := by
  decide

/-- Claim C8 counterexample: a repetition-expanded sub-segment keeps the
window end `rep_end` as its `end`, but its evenly distributed words stop
0.03 s earlier, so `segment.end ≠ max word.end`. -/
theorem C8_counterexample :
    ∃ seg ∈ split_repetitions ⟨"a b", 0, 10, []⟩ 2 [],
      seg.words ≠ [] ∧ seg.stop ≠ maxStop seg.words := by decide

/-- Claim C9 counterexample: the placeholder for a word-less line ends at
`prev_end + 3.0 = 5.0`, not at `start + 3.0 = 5.5` as the claim states. -/
theorem C9_counterexample :
    map_words_to_lines [⟨"a", 1, 2⟩] ["a", "b"] ["a", "b"] =
      [⟨"a", 1, 2, [⟨"a", 1, 2⟩]⟩, ⟨"b", 5/2, 5, []⟩] ∧ (5 : ℚ) ≠ 5/2 + 3 := by
  constructor
  · decide
  · norm_num

/-- Claim C10 counterexample: the inline clamp of `full_pipeline_gemini`
does not sort: oracle words supplied out of order stay out of order. -/
theorem C10_counterexample :
    ∃ seg ∈ full_pipeline_clamp 10 [⟨"t", 0, 10, [⟨"w1", 5, 11/2⟩, ⟨"w2", 1, 3/2⟩]⟩],
      ¬ seg.words.Pairwise wordLE := by decide

/-! ### Generic list/rounding helpers -/

theorem round2_sub_bound (a b : ℚ) : |(round2 b - round2 a) - (b - a)| ≤ 1/100 := by
  have ha := round2_abs_sub a
  have hb := round2_abs_sub b
  have h : (round2 b - round2 a) - (b - a) = (round2 b - b) - (round2 a - a) := by ring
  rw [h]
  calc |(round2 b - b) - (round2 a - a)| ≤ |round2 b - b| + |round2 a - a| := abs_sub _ _
    _ ≤ 1/200 + 1/200 := add_le_add hb ha
    _ = 1/100 := by norm_num

theorem head?_map_range {α : Type} (f : ℕ → α) (m : ℕ) :
    ((List.range (m+1)).map f).head? = some (f 0) := by
  rw [List.range_succ_eq_map]
  simp

theorem getLast?_map_range {α : Type} (f : ℕ → α) (m : ℕ) :
    ((List.range (m+1)).map f).getLast? = some (f m) := by
  rw [List.range_succ, List.map_append]
  simp

/-! ### Claim C3 -/

theorem rep_window_stop_eq_start_succ (seg : Segment) (n : ℤ) (r : ℕ) :
    rep_window_stop seg n r = rep_window_start seg n (r+1) := by
  unfold rep_window_stop rep_window_start
  push_cast
  ring_nf

/-- Claim C3 (amended only by making the canonical-representation data-model
hypotheses explicit: `start ≤ end` and two-decimal endpoints): the oracle
repetition count is clamped to `[1, 10]`, and for `n > 1` the segment is
replaced by exactly `n` sub-segments carrying the same text, in time order,
consecutive windows sharing an endpoint (no gaps, no overlaps), the first
starting at the original start, the last ending at the original end, each of
duration `D/n` up to 2-decimal rounding (within 0.01 s). -/
theorem C3_rep_expander (seg : Segment) (reps_raw : ℤ) (gw : List Word)
    (h1 : seg.start ≤ seg.stop) (h2 : twoDec seg.start) (h3 : twoDec seg.stop) :
    (1 ≤ rep_count reps_raw ∧ rep_count reps_raw ≤ 10) ∧
    (1 < rep_count reps_raw →
      (split_repetitions seg reps_raw gw).length = (rep_count reps_raw).toNat ∧
      (∀ t ∈ split_repetitions seg reps_raw gw, t.text = seg.text) ∧
      (split_repetitions seg reps_raw gw).Chain' (fun a b => a.stop = b.start) ∧
      (split_repetitions seg reps_raw gw).Chain' (fun a b => a.start ≤ b.start) ∧
      ((split_repetitions seg reps_raw gw).head?.map Segment.start) = some seg.start ∧
      ((split_repetitions seg reps_raw gw).getLast?.map Segment.stop) = some seg.stop ∧
      ∀ t ∈ split_repetitions seg reps_raw gw,
        |(t.stop - t.start) - (seg.stop - seg.start) / ((rep_count reps_raw : ℤ) : ℚ)| ≤ 1/100) := by
  constructor
  · constructor
    · exact le_max_left _ _
    · exact max_le (by norm_num) (min_le_right _ _)
  intro hn
  have hn1 : 1 ≤ rep_count reps_raw := le_max_left _ _
  have hnn : 2 ≤ (rep_count reps_raw).toNat := by omega
  obtain ⟨m, hm⟩ : ∃ m, (rep_count reps_raw).toNat = m + 1 := ⟨(rep_count reps_raw).toNat - 1, by omega⟩
  have hcast : (((rep_count reps_raw).toNat : ℕ) : ℚ) = ((rep_count reps_raw : ℤ) : ℚ) := by
    rw [show (((rep_count reps_raw).toNat : ℕ) : ℚ) = (((rep_count reps_raw).toNat : ℤ) : ℚ) by push_cast; ring]
    rw [Int.toNat_of_nonneg (by omega)]
  have hqpos : (0 : ℚ) < ((rep_count reps_raw : ℤ) : ℚ) := by
    have : (1 : ℚ) ≤ ((rep_count reps_raw : ℤ) : ℚ) := by exact_mod_cast hn1
    linarith
  have hslot : (0 : ℚ) ≤ (seg.stop - seg.start) / ((rep_count reps_raw : ℤ) : ℚ) :=
    div_nonneg (by linarith) (le_of_lt hqpos)
  have hsimp : split_repetitions seg reps_raw gw =
      (List.range (rep_count reps_raw).toNat).map (fun r =>
        ⟨seg.text, rep_window_start seg (rep_count reps_raw) r,
          rep_window_stop seg (rep_count reps_raw) r,
          if r = 0 ∧ gw ≠ [] then
            clamp_words gw (rep_window_start seg (rep_count reps_raw) r)
              (rep_window_stop seg (rep_count reps_raw) r)
          else
            even_words seg.text (rep_window_start seg (rep_count reps_raw) r)
              (rep_window_stop seg (rep_count reps_raw) r)⟩) := by
    unfold split_repetitions
    rw [if_pos hn]
  rw [hsimp]
  refine ⟨by simp, ?_, ?_, ?_, ?_, ?_, ?_⟩
  · intro t ht
    obtain ⟨r, _, rfl⟩ := List.mem_map.1 ht
    rfl
  · rw [List.chain'_map, hm]
    rw [List.chain'_range_succ]
    intro r _
    exact rep_window_stop_eq_start_succ seg (rep_count reps_raw) r
  · rw [List.chain'_map, hm]
    rw [List.chain'_range_succ]
    intro r _
    apply round2_le_round2
    have : ((r : ℕ) : ℚ) ≤ (((r+1 : ℕ)) : ℚ) := by push_cast; linarith
    have hmul := mul_le_mul_of_nonneg_right this hslot
    push_cast
    push_cast at hmul
    nlinarith [hslot]
  · rw [hm, head?_map_range]
    have h0 : rep_window_start seg (rep_count reps_raw) 0 = seg.start := by
      unfold rep_window_start
      rw [show seg.start + ((0:ℕ) : ℚ) * ((seg.stop - seg.start) / ((rep_count reps_raw : ℤ) : ℚ)) =
        seg.start by push_cast; ring]
      exact h2
    simp [h0]
  · rw [hm, getLast?_map_range]
    have hml : rep_window_stop seg (rep_count reps_raw) m = seg.stop := by
      unfold rep_window_stop
      have hmq : ((m : ℕ) : ℚ) + 1 = ((rep_count reps_raw : ℤ) : ℚ) := by
        rw [← hcast, hm]
        push_cast
        ring
      rw [hmq, mul_div_cancel₀ _ (ne_of_gt hqpos),
        show seg.start + (seg.stop - seg.start) = seg.stop by ring]
      exact h3
    simp [hml]
  · intro t ht
    obtain ⟨r, _, rfl⟩ := List.mem_map.1 ht
    show |(rep_window_stop seg (rep_count reps_raw) r - rep_window_start seg (rep_count reps_raw) r) -
        (seg.stop - seg.start) / ((rep_count reps_raw : ℤ) : ℚ)| ≤ 1/100
    unfold rep_window_stop rep_window_start
    have hd : (seg.start + ((r : ℚ) + 1) * ((seg.stop - seg.start) / ((rep_count reps_raw : ℤ) : ℚ))) -
        (seg.start + (r : ℚ) * ((seg.stop - seg.start) / ((rep_count reps_raw : ℤ) : ℚ))) =
        (seg.stop - seg.start) / ((rep_count reps_raw : ℤ) : ℚ) := by ring
    calc |(round2 (seg.start + ((r : ℚ) + 1) * ((seg.stop - seg.start) / ((rep_count reps_raw : ℤ) : ℚ))) -
          round2 (seg.start + (r : ℚ) * ((seg.stop - seg.start) / ((rep_count reps_raw : ℤ) : ℚ)))) -
          (seg.stop - seg.start) / ((rep_count reps_raw : ℤ) : ℚ)| =
        |(round2 (seg.start + ((r : ℚ) + 1) * ((seg.stop - seg.start) / ((rep_count reps_raw : ℤ) : ℚ))) -
          round2 (seg.start + (r : ℚ) * ((seg.stop - seg.start) / ((rep_count reps_raw : ℤ) : ℚ)))) -
          ((seg.start + ((r : ℚ) + 1) * ((seg.stop - seg.start) / ((rep_count reps_raw : ℤ) : ℚ))) -
          (seg.start + (r : ℚ) * ((seg.stop - seg.start) / ((rep_count reps_raw : ℤ) : ℚ))))| := by
          rw [hd]
      _ ≤ 1/100 := round2_sub_bound ..

/-- Witness for C3 at scenario B: segment `[10, 16]`, oracle count 2. -/
theorem C3_witness :
    ((10 : ℚ) ≤ 16 ∧ twoDec 10 ∧ twoDec 16) ∧
    (1 ≤ rep_count 2 ∧ rep_count 2 ≤ 10) ∧
    (1 < rep_count 2 →
      (split_repetitions ⟨"jj", 10, 16, []⟩ 2 []).length = (rep_count 2).toNat ∧
      (∀ t ∈ split_repetitions ⟨"jj", 10, 16, []⟩ 2 [], t.text = Segment.text ⟨"jj", 10, 16, []⟩) ∧
      (split_repetitions ⟨"jj", 10, 16, []⟩ 2 []).Chain' (fun a b => a.stop = b.start) ∧
      (split_repetitions ⟨"jj", 10, 16, []⟩ 2 []).Chain' (fun a b => a.start ≤ b.start) ∧
      ((split_repetitions ⟨"jj", 10, 16, []⟩ 2 []).head?.map Segment.start) = some 10 ∧
      ((split_repetitions ⟨"jj", 10, 16, []⟩ 2 []).getLast?.map Segment.stop) = some 16 ∧
      ∀ t ∈ split_repetitions ⟨"jj", 10, 16, []⟩ 2 [],
        |(t.stop - t.start) - (16 - 10) / ((rep_count 2 : ℤ) : ℚ)| ≤ 1/100) :=
  ⟨⟨by norm_num, by decide, by decide⟩,
    C3_rep_expander ⟨"jj", 10, 16, []⟩ 2 [] (by norm_num) (by decide) (by decide)⟩

/-! ### Claim C10 -/

theorem clamp_words_mem_shape {gw : List Word} {s e : ℚ} {x : Word}
    (hx : x ∈ clamp_words gw s e) :
    ∃ w ∈ gw, x = ⟨w.word, round2 (cw_ws s e w), round2 (cw_we s e w)⟩ := by
  unfold clamp_words at hx
  rw [List.mem_insertionSort] at hx
  obtain ⟨w, hw, rfl⟩ := List.mem_map.1 hx
  exact ⟨w, hw, rfl⟩

theorem clamp_words_duration (gw : List Word) (s e : ℚ) :
    ∀ x ∈ clamp_words gw s e, x.start + 5/100 ≤ x.stop := by
  intro x hx
  obtain ⟨w, _, rfl⟩ := clamp_words_mem_shape hx
  show round2 (cw_ws s e w) + 5/100 ≤ round2 (cw_we s e w)
  unfold cw_we
  split
  · rw [twoDec_round2 (cw_ws s e w + 3/2), round2_add_150]
    linarith
  · have h1 : cw_ws s e w + 5/100 ≤ cw_we0 s e w := le_max_left _ _
    calc round2 (cw_ws s e w) + 5/100 = round2 (cw_ws s e w + 5/100) := (round2_add_5 _).symm
      _ ≤ round2 (cw_we0 s e w) := round2_le_round2 h1

theorem fpc_word_duration (s e : ℚ) (w : Word) :
    (fpc_word s e w).start + 5/100 ≤ (fpc_word s e w).stop := by
  show fpc_ws s e w + 5/100 ≤ fpc_we s e w
  have hts : twoDec (fpc_ws s e w) := twoDec_round2 _
  unfold fpc_we
  split
  · rw [round2_add_150, hts]
    linarith
  · unfold fpc_we0
    calc fpc_ws s e w + 5/100 = round2 (fpc_ws s e w + 5/100) := by
          rw [round2_add_5, hts]
      _ ≤ round2 (max (fpc_ws s e w + 5/100) (min w.stop e)) :=
          round2_le_round2 (le_max_left _ _)

/-- Claim C10 (amended): in `_clamp_words`, every returned word has
`end ≥ start + 0.05` (even after rounding, hence strictly positive duration)
and the returned words are sorted by non-decreasing start; the inline clamp
of `full_pipeline_gemini` also guarantees `end ≥ start + 0.05` but does not
sort (see the counterexample). -/
theorem C10_amended :
    (∀ (gw : List Word) (s e : ℚ), ∀ x ∈ clamp_words gw s e, x.start + 5/100 ≤ x.stop) ∧
    (∀ (gw : List Word) (s e : ℚ), (clamp_words gw s e).Pairwise wordLE) ∧
    (∀ (s e : ℚ) (w : Word), (fpc_word s e w).start + 5/100 ≤ (fpc_word s e w).stop) := by
  refine ⟨clamp_words_duration, ?_, fpc_word_duration⟩
  intro gw s e
  exact List.sorted_insertionSort wordLE _

/-- Witness for C10 at a concrete word. -/
theorem C10_witness :
    ((⟨"w", 1, 6/5⟩ : Word) ∈ clamp_words [⟨"w", 1, 6/5⟩] 0 10 ∧
      (⟨"w", 1, 6/5⟩ : Word).start + 5/100 ≤ (⟨"w", 1, 6/5⟩ : Word).stop) ∧
    (clamp_words [⟨"w", 1, 6/5⟩] 0 10).Pairwise wordLE ∧
    (fpc_word 0 10 ⟨"w", 1, 6/5⟩).start + 5/100 ≤ (fpc_word 0 10 ⟨"w", 1, 6/5⟩).stop :=
  ⟨⟨by decide, C10_amended.1 [⟨"w", 1, 6/5⟩] 0 10 ⟨"w", 1, 6/5⟩ (by decide)⟩,
    C10_amended.2.1 [⟨"w", 1, 6/5⟩] 0 10, C10_amended.2.2 0 10 ⟨"w", 1, 6/5⟩⟩

/-! ### Claim C9 -/

theorem line_words_stop_twoDec {orig clean : String} {ws : List Word} :
    ∀ x ∈ line_words orig clean ws, twoDec x.stop := by
  intro x hx
  obtain ⟨p, _, rfl⟩ := List.mem_map.1 hx
  exact twoDec_round2 _

theorem map_lines_go_chain (lines : List (String × String)) :
    ∀ (words : List Word) (pe : ℚ), twoDec pe →
      ∀ init : Segment, init.stop = pe →
        List.Chain placeholderRel init (map_lines_go lines words pe) := by
  induction lines with
  | nil => intro words pe _ init _; exact List.Chain.nil
  | cons hd rest ih =>
    intro words pe hpe init hinit
    obtain ⟨orig, clean⟩ := hd
    show List.Chain placeholderRel init (map_lines_go ((orig, clean) :: rest) words pe)
    unfold map_lines_go
    split
    · refine List.Chain.cons ?_ ?_
      · intro _
        constructor
        · show round2 (pe + 1/2) = init.stop + 1/2
          rw [round2_add_50, hpe, hinit]
        · show round2 (pe + 3) = init.stop + 3
          rw [round2_add_300, hpe, hinit]
      · exact ih _ _ (twoDec_round2 _) _ rfl
    · rename_i hne
      refine List.Chain.cons (fun hcon => absurd hcon hne) ?_
      refine ih _ _ ?_ _ rfl
      cases hl : (line_words orig clean words).getLast? with
      | none =>
        rw [List.getLast?_eq_none_iff] at hl
        exact absurd hl hne
      | some w =>
        show twoDec ((some w |>.map Word.stop).getD 0)
        have hw : w ∈ line_words orig clean words := List.mem_of_getLast?_eq_some hl
        simpa using line_words_stop_twoDec w hw

/-- Claim C9 (amended): a line with zero aligned words yields the
placeholder window `[prev_end + 0.5, prev_end + 3.0]` — its end is the
previous segment's end plus 3.0 s (equivalently start + 2.5 s), not
`start + 3.0` as the claim stated; the virtual initial "previous segment"
ends at 0. -/
theorem C9_amended (all_words : List Word) (original_lines clean_lines : List String) :
    List.Chain placeholderRel ⟨"", 0, 0, []⟩
      (map_words_to_lines all_words original_lines clean_lines) := by
  unfold map_words_to_lines
  exact map_lines_go_chain _ _ 0 (by decide) _ rfl

/-! ### Claim C6 -/

/-- Claim C6 (amended): truncation to the ceiling anchored at the original
start holds for an over-long word that lies inside the segment window with a
two-decimal start, provided the bunched-redistribution rule cannot fire: in
`_clamp_words` (ceiling 1.5 s, singleton word list) and in
`_sanitize_word_timestamps` (ceiling 3.0 s, single-word segment); scenario C
`{start: 1.0, end: 7.0}` with the 3.0 s ceiling becomes `{1.0, 4.0}`. -/
theorem C6_amended :
    (∀ (w : Word) (s e : ℚ), s ≤ w.start → w.stop ≤ e → twoDec w.start →
      3/2 < w.stop - w.start →
      clamp_words [w] s e = [⟨w.word, w.start, w.start + 3/2⟩]) ∧
    (∀ (line : Segment) (w : Word), line.words = [w] → 0 < line.stop - line.start →
      twoDec w.start → 3 < w.stop - w.start →
      sanitize_segment line = ⟨line.text, line.start, line.stop, [⟨w.word, w.start, w.start + 3⟩]⟩) ∧
    sanitize_segment ⟨"line", 1, 7, [⟨"w", 1, 7⟩]⟩ = ⟨"line", 1, 7, [⟨"w", 1, 4⟩]⟩ := by
  refine ⟨?_, ?_, by decide⟩
  · intro w s e hs he htd hdur
    have hws : cw_ws s e w = w.start := by
      unfold cw_ws
      rw [min_eq_left (by linarith), max_eq_right hs]
    have hwe0 : cw_we0 s e w = w.stop := by
      unfold cw_we0
      rw [hws, min_eq_left he, max_eq_right (by linarith)]
    have hwe : cw_we s e w = round2 (w.start + 3/2) := by
      unfold cw_we
      rw [hws, hwe0, if_pos (by linarith)]
    show [(⟨w.word, round2 (cw_ws s e w), round2 (cw_we s e w)⟩ : Word)] = _
    rw [hws, hwe, twoDec_round2 (w.start + 3/2), round2_add_150, htd]
  · intro line w hw hdur htd hlong
    unfold sanitize_segment
    rw [hw]
    rw [if_neg (by simp), if_neg (by linarith)]
    show (⟨line.text, line.start, line.stop, [capLong w]⟩ : Segment) = _
    unfold capLong
    rw [if_pos hlong, round2_add_300, htd]

/-- Witness for C6's two conditional parts at concrete inputs. -/
theorem C6_witness :
    clamp_words [⟨"w", 0, 2⟩] 0 10 = [⟨"w", 0, 0 + 3/2⟩] ∧
    sanitize_segment ⟨"l", 0, 10, [⟨"w", 0, 4⟩]⟩ = ⟨"l", 0, 10, [⟨"w", 0, 0 + 3⟩]⟩ :=
  ⟨C6_amended.1 ⟨"w", 0, 2⟩ 0 10 (by norm_num) (by norm_num) (by decide) (by norm_num),
    C6_amended.2.1 ⟨"l", 0, 10, [⟨"w", 0, 4⟩]⟩ ⟨"w", 0, 4⟩ rfl (by norm_num) (by decide) (by norm_num)⟩

/-! ### Claim C4 -/

theorem sanitize_segment_shell (s : Segment) :
    (sanitize_segment s).text = s.text ∧ (sanitize_segment s).start = s.start ∧
      (sanitize_segment s).stop = s.stop := by
  unfold sanitize_segment
  split
  · exact ⟨rfl, rfl, rfl⟩
  split
  · exact ⟨rfl, rfl, rfl⟩
  · exact ⟨rfl, rfl, rfl⟩

theorem capLong_inbounds {ls le : ℚ} (hle : twoDec le) {w : Word}
    (h1 : ls ≤ w.start) (h2 : w.stop ≤ le) :
    ls ≤ (capLong w).start ∧ (capLong w).stop ≤ le := by
  unfold capLong
  split
  · rename_i hd
    refine ⟨h1, ?_⟩
    show round2 (w.start + 3) ≤ le
    calc round2 (w.start + 3) ≤ round2 w.stop := round2_le_round2 (by linarith)
      _ ≤ round2 le := round2_le_round2 h2
      _ = le := hle
  · exact ⟨h1, h2⟩

theorem sanitize_words_inbounds (ls le : ℚ) (h1 : twoDec ls) (h2 : twoDec le)
    (hd : ¬ (le - ls ≤ 0)) (sorted : List Word)
    (hmem : ∀ w ∈ sorted, ls ≤ w.start ∧ w.start ≤ le ∧ ls ≤ w.stop ∧ w.stop ≤ le) :
    ∀ w ∈ sanitize_words ls le sorted, ls ≤ w.start ∧ w.stop ≤ le := by
  unfold sanitize_words
  split
  · intro w hw
    cases hw
  · rename_i w0
    intro x hx
    rw [List.mem_singleton] at hx
    subst hx
    exact capLong_inbounds h2 (hmem w0 (by simp)).1 (hmem w0 (by simp)).2.2.2
  · rename_i first second rest
    split
    · rename_i h3
      split
      · -- redistribution branch
        rename_i hgap
        intro x hx
        unfold redistribute_words at hx
        rw [List.mem_map] at hx
        obtain ⟨p, hp, rfl⟩ := hx
        have hlen : p.1 < (first :: second :: rest).length := by
          have hx := List.mem_enum_iff_getElem?.1 hp
          by_contra hcon
          rw [List.getElem?_eq_none (by omega)] at hx
          cases hx
        have hsec : second.start ≤ le := (hmem second (by simp)).2.1
        have hge : ls ≤ actual_start ls second.start := le_max_right _ _
        have hle2 : actual_start ls second.start ≤ le := by
          apply max_le
          · linarith
          · linarith [hd]
        have hn : (0 : ℚ) < (((first :: second :: rest).length : ℕ) : ℚ) := by
          exact_mod_cast Nat.succ_pos (second :: rest).length
        have hslot : (0 : ℚ) ≤
            (le - actual_start ls second.start) / (((first :: second :: rest).length : ℕ) : ℚ) :=
          div_nonneg (by linarith) (le_of_lt hn)
        constructor
        · show ls ≤ round2 (actual_start ls second.start + (p.1 : ℚ) *
            ((le - actual_start ls second.start) / (((first :: second :: rest).length : ℕ) : ℚ)))
          calc ls = round2 ls := h1.symm
            _ ≤ _ := round2_le_round2 (by nlinarith [hslot, hge])
        · exact min_le_right _ _
      · -- cap-first branch
        rename_i hgap
        intro x hx
        rw [List.mem_map] at hx
        obtain ⟨y, hy, rfl⟩ := hx
        rcases List.mem_cons.1 hy with hy1 | hy2
        · subst hy1
          apply capLong_inbounds h2
          · exact (hmem first (by simp)).1
          · show round2 (first.start + 3) ≤ le
            calc round2 (first.start + 3) ≤ round2 first.stop := round2_le_round2 (by linarith)
              _ ≤ round2 le := round2_le_round2 (hmem first (by simp)).2.2.2
              _ = le := h2
        · have := hmem y (List.mem_cons_of_mem first hy2)
          exact capLong_inbounds h2 this.1 this.2.2.2
    · intro x hx
      rw [List.mem_map] at hx
      obtain ⟨y, hy, rfl⟩ := hx
      have := hmem y hy
      exact capLong_inbounds h2 this.1 this.2.2.2

theorem sanitize_segment_inbounds (s : Segment) (h1 : twoDec s.start) (h2 : twoDec s.stop)
    (hws : ∀ w ∈ s.words, s.start ≤ w.start ∧ w.start ≤ s.stop ∧ s.start ≤ w.stop ∧ w.stop ≤ s.stop) :
    ∀ w ∈ (sanitize_segment s).words, s.start ≤ w.start ∧ w.stop ≤ s.stop := by
  unfold sanitize_segment
  split
  · exact fun w hw => ⟨(hws w hw).1, (hws w hw).2.2.2⟩
  split
  · exact fun w hw => ⟨(hws w hw).1, (hws w hw).2.2.2⟩
  rename_i hne hdur
  intro w hw
  exact sanitize_words_inbounds s.start s.stop h1 h2 hdur _
    (fun y hy => hws y ((List.mem_insertionSort wordLE).1 hy)) w hw

/-- Claim C4 (amended): `_sanitize_word_timestamps` never changes any
segment's `text`, `start` or `end` (unconditionally); and provided every
input word already lies inside its segment's two-decimal `[start, end]`
window, every output word satisfies `segment.start ≤ word.start` and
`word.end ≤ segment.end`. -/
theorem C4_amended (lyrics : List Segment) :
    ((sanitize_word_timestamps lyrics).map (fun s => (s.text, s.start, s.stop)) =
      lyrics.map (fun s => (s.text, s.start, s.stop))) ∧
    ((∀ seg ∈ lyrics, twoDec seg.start ∧ twoDec seg.stop ∧
        ∀ w ∈ seg.words, seg.start ≤ w.start ∧ w.start ≤ seg.stop ∧
          seg.start ≤ w.stop ∧ w.stop ≤ seg.stop) →
      ∀ seg ∈ sanitize_word_timestamps lyrics, ∀ w ∈ seg.words,
        seg.start ≤ w.start ∧ w.stop ≤ seg.stop) := by
  constructor
  · unfold sanitize_word_timestamps
    rw [List.map_map]
    apply List.map_congr_left
    intro s _
    have h := sanitize_segment_shell s
    show ((sanitize_segment s).text, (sanitize_segment s).start, (sanitize_segment s).stop) = _
    rw [h.1, h.2.1, h.2.2]
  · intro h seg hseg w hw
    unfold sanitize_word_timestamps at hseg
    obtain ⟨s0, hs0, rfl⟩ := List.mem_map.1 hseg
    have hsh := sanitize_segment_shell s0
    have hb := sanitize_segment_inbounds s0 (h s0 hs0).1 (h s0 hs0).2.1
      (fun y hy => (h s0 hs0).2.2 y hy) w hw
    rw [hsh.2.1, hsh.2.2]
    exact hb

/-- Witness for C4 at a concrete list. -/
theorem C4_witness :
    ((sanitize_word_timestamps [⟨"s", 0, 10, [⟨"w", 1, 2⟩]⟩]).map (fun s => (s.text, s.start, s.stop)) =
      ([⟨"s", 0, 10, [⟨"w", 1, 2⟩]⟩] : List Segment).map (fun s => (s.text, s.start, s.stop))) ∧
    (∀ seg ∈ sanitize_word_timestamps [⟨"s", 0, 10, [⟨"w", 1, 2⟩]⟩], ∀ w ∈ seg.words,
      seg.start ≤ w.start ∧ w.stop ≤ seg.stop) :=
  ⟨(C4_amended [⟨"s", 0, 10, [⟨"w", 1, 2⟩]⟩]).1,
    (C4_amended [⟨"s", 0, 10, [⟨"w", 1, 2⟩]⟩]).2 (by decide)⟩

/-! ### Claim C7 -/

theorem fpc_stop_ge (d : ℚ) (i : Segment) (hroom : fpc_start d i ≤ d - 1/10) :
    fpc_start d i + 1/10 ≤ fpc_stop d i := by
  unfold fpc_stop
  apply le_min
  · exact le_trans (le_max_right _ _) (le_refl _)
  · linarith

theorem fpc_ws_bounds (cs ce : ℚ) (w : Word) (hce : cs ≤ ce) :
    round2 cs ≤ fpc_ws cs ce w ∧ fpc_ws cs ce w ≤ round2 ce := by
  constructor
  · exact round2_le_round2 (le_max_left _ _)
  · apply round2_le_round2
    apply max_le hce
    exact min_le_right _ _

theorem fpc_we_le (cs ce : ℚ) (w : Word)
    (hw : fpc_ws cs ce w + 5/100 ≤ round2 ce) :
    fpc_we cs ce w ≤ round2 ce := by
  have hts : twoDec (fpc_ws cs ce w) := twoDec_round2 _
  have hwe0 : fpc_we0 cs ce w ≤ round2 ce := by
    unfold fpc_we0
    rw [round2_mono.map_max]
    apply max_le
    · rw [round2_add_5, hts]
      exact hw
    · exact round2_le_round2 (min_le_right _ _)
  unfold fpc_we
  split
  · rename_i hcap
    rw [round2_add_150, hts]
    linarith
  · exact hwe0

/-- Claim C7 (amended): the serialization loop of `full_pipeline_gemini`
enforces the three canonical invariants provided the oracle items are
already ordered by start, every clamped item start leaves at least 0.1 s of
room below the audio duration, and every word's clamped rounded start lies
at least 0.05 s below the rounded segment end. -/
theorem C7_amended (d : ℚ) (data : List Segment)
    (hord : data.Pairwise (fun a b => a.start ≤ b.start))
    (hroom : ∀ i ∈ data, fpc_start d i ≤ d - 1/10)
    (hwords : ∀ i ∈ data, ∀ w ∈ i.words,
      fpc_ws (fpc_start d i) (fpc_stop d i) w + 5/100 ≤ round2 (fpc_stop d i)) :
    segInvariants (full_pipeline_clamp d data) := by
  refine ⟨?_, ?_, ?_⟩
  · unfold full_pipeline_clamp
    rw [List.pairwise_map]
    apply hord.imp
    intro a b hab
    show round2 (fpc_start d a) ≤ round2 (fpc_start d b)
    apply round2_le_round2
    unfold fpc_start
    exact min_le_min (max_le_max hab (le_refl 0)) (le_refl d)
  · intro s hs
    unfold full_pipeline_clamp at hs
    obtain ⟨i, hi, rfl⟩ := List.mem_map.1 hs
    show round2 (fpc_start d i) < round2 (fpc_stop d i)
    have h10 := fpc_stop_ge d i (hroom i hi)
    calc round2 (fpc_start d i) < round2 (fpc_start d i) + 1/10 := by linarith
      _ = round2 (fpc_start d i + 1/10) := (round2_add_10 _).symm
      _ ≤ round2 (fpc_stop d i) := round2_le_round2 h10
  · intro s hs w hw
    unfold full_pipeline_clamp at hs
    obtain ⟨i, hi, rfl⟩ := List.mem_map.1 hs
    rw [List.mem_map] at hw
    obtain ⟨w0, hw0, rfl⟩ := hw
    have hce : fpc_start d i ≤ fpc_stop d i := by
      have := fpc_stop_ge d i (hroom i hi)
      linarith
    have hb := fpc_ws_bounds (fpc_start d i) (fpc_stop d i) w0 hce
    have hdur := fpc_word_duration (fpc_start d i) (fpc_stop d i) w0
    have hle := fpc_we_le (fpc_start d i) (fpc_stop d i) w0 (hwords i hi w0 hw0)
    refine ⟨hb.1, hb.2, ?_, hle⟩
    show round2 (fpc_start d i) ≤ fpc_we (fpc_start d i) (fpc_stop d i) w0
    have : fpc_ws (fpc_start d i) (fpc_stop d i) w0 + 5/100 ≤
        fpc_we (fpc_start d i) (fpc_stop d i) w0 := hdur
    linarith [hb.1]

/-- Witness for C7 at a concrete oracle payload. -/
theorem C7_witness :
    segInvariants (full_pipeline_clamp 10 [⟨"a", 1, 3, [⟨"w", 6/5, 2⟩]⟩]) :=
  C7_amended 10 [⟨"a", 1, 3, [⟨"w", 6/5, 2⟩]⟩] (by decide) (by decide) (by decide)

/-! ### Claim C8 -/

theorem foldl_min_start_const : ∀ (ws : List Word) (acc : ℚ),
    (∀ x ∈ ws, acc ≤ x.start) → ws.foldl (fun m x => min m x.start) acc = acc := by
  intro ws
  induction ws with
  | nil => intro acc _; rfl
  | cons y ys ih =>
    intro acc h
    show (ys.foldl (fun m x => min m x.start) (min acc y.start)) = acc
    rw [min_eq_left (h y (List.mem_cons_self y ys))]
    exact ih acc (fun x hx => h x (List.mem_cons_of_mem y hx))

theorem minStart_sorted {w : Word} {ws : List Word}
    (h : (w :: ws).Pairwise (fun a b => a.start ≤ b.start)) :
    minStart (w :: ws) = w.start := by
  unfold minStart
  exact foldl_min_start_const ws w.start (fun x hx => (List.pairwise_cons.1 h).1 x hx)

theorem maxStop_sorted : ∀ {l : List Word} (hl : l ≠ []),
    l.Pairwise (fun a b => a.stop ≤ b.stop) → maxStop l = (l.getLast hl).stop := by
  intro l
  induction l with
  | nil => intro hl; exact absurd rfl hl
  | cons w ws ih =>
    intro _ h
    cases ws with
    | nil => rfl
    | cons x rest =>
      have hstep : maxStop (w :: x :: rest) = maxStop (x :: rest) := by
        show (x :: rest).foldl (fun m y => max m y.stop) w.stop = rest.foldl (fun m y => max m y.stop) x.stop
        show rest.foldl (fun m y => max m y.stop) (max w.stop x.stop) = rest.foldl (fun m y => max m y.stop) x.stop
        rw [max_eq_right ((List.pairwise_cons.1 h).1 x (List.mem_cons_self x rest))]
      rw [hstep, ih (List.cons_ne_nil x rest) (List.pairwise_cons.1 h).2]
      rw [List.getLast_cons (List.cons_ne_nil x rest)]

theorem line_words_pairwise {orig clean : String} {ws : List Word}
    (h : ws.Pairwise (fun a b => a.start ≤ b.start ∧ a.stop ≤ b.stop)) :
    (line_words orig clean ws).Pairwise (fun a b => a.start ≤ b.start ∧ a.stop ≤ b.stop) := by
  unfold line_words
  rw [List.pairwise_map]
  have htake : (ws.take (pySplit clean).length).Pairwise
      (fun a b => a.start ≤ b.start ∧ a.stop ≤ b.stop) :=
    h.sublist (List.take_sublist _ _)
  have henum : ((ws.take (pySplit clean).length).enum).Pairwise
      (fun p q => p.2.start ≤ q.2.start ∧ p.2.stop ≤ q.2.stop) := by
    have h2 : ((ws.take (pySplit clean).length).enum.map Prod.snd).Pairwise
        (fun a b => a.start ≤ b.start ∧ a.stop ≤ b.stop) := by
      rw [List.enum_map_snd]
      exact htake
    exact List.pairwise_map.1 h2
  apply henum.imp
  intro p q hpq
  exact ⟨round2_le_round2 hpq.1, round2_le_round2 hpq.2⟩

theorem map_lines_go_minmax : ∀ (lines : List (String × String)) (words : List Word) (pe : ℚ),
    words.Pairwise (fun a b => a.start ≤ b.start ∧ a.stop ≤ b.stop) →
    ∀ seg ∈ map_lines_go lines words pe, seg.words ≠ [] →
      seg.start = minStart seg.words ∧ seg.stop = maxStop seg.words := by
  intro lines
  induction lines with
  | nil => intro words pe _ seg hseg; cases hseg
  | cons hd rest ih =>
    intro words pe hpw seg hseg
    obtain ⟨orig, clean⟩ := hd
    have hdrop : (words.drop (pySplit clean).length).Pairwise
        (fun a b => a.start ≤ b.start ∧ a.stop ≤ b.stop) :=
      hpw.sublist (List.drop_sublist _ _)
    unfold map_lines_go at hseg
    split at hseg
    · rcases List.mem_cons.1 hseg with h1 | h2
      · intro hne
        subst h1
        exact absurd rfl hne
      · exact ih _ _ hdrop seg h2
    · rename_i hlw
      rcases List.mem_cons.1 hseg with h1 | h2
      · intro _
        subst h1
        have hp := @line_words_pairwise orig clean words hpw
        obtain ⟨w, tl, hwt⟩ := List.exists_cons_of_ne_nil hlw
        constructor
        · show ((line_words orig clean words).head?.map Word.start).getD 0 = _
          rw [hwt]
          simp only [List.head?_cons, Option.map_some, Option.getD_some]
          exact (minStart_sorted (hwt ▸ hp.imp (fun h => h.1))).symm
        · show ((line_words orig clean words).getLast?.map Word.stop).getD 0 = _
          rw [hwt]
          rw [List.getLast?_eq_getLast _ (List.cons_ne_nil w tl)]
          simp only [Option.map_some, Option.getD_some]
          exact (maxStop_sorted (List.cons_ne_nil w tl) (hwt ▸ hp.imp (fun h => h.2))).symm
      · exact ih _ _ hdrop seg h2

/-- Claim C8 (amended): the equalities `segment.start = min word.start` and
`segment.end = max word.end` hold for the segments built by
`_map_words_to_lines` whenever the aligned word stream is sorted by start
and by end (as CTC output is); they fail for the repetition expanders, whose
sub-segments end 0.03 s after their last word (see the counterexample). -/
theorem C8_amended (all_words : List Word) (original_lines clean_lines : List String)
    (hsorted : all_words.Pairwise (fun a b => a.start ≤ b.start ∧ a.stop ≤ b.stop)) :
    ∀ seg ∈ map_words_to_lines all_words original_lines clean_lines, seg.words ≠ [] →
      seg.start = minStart seg.words ∧ seg.stop = maxStop seg.words := by
  unfold map_words_to_lines
  exact map_lines_go_minmax _ _ 0 hsorted

/-- Witness for C8 at a concrete aligned word stream and its produced segment. -/
theorem C8_witness :
    (⟨"x y", 1, 3, [⟨"x", 1, 2⟩, ⟨"y", 5/2, 3⟩]⟩ : Segment).start =
      minStart (⟨"x y", 1, 3, [⟨"x", 1, 2⟩, ⟨"y", 5/2, 3⟩]⟩ : Segment).words ∧
    (⟨"x y", 1, 3, [⟨"x", 1, 2⟩, ⟨"y", 5/2, 3⟩]⟩ : Segment).stop =
      maxStop (⟨"x y", 1, 3, [⟨"x", 1, 2⟩, ⟨"y", 5/2, 3⟩]⟩ : Segment).words :=
  C8_amended [⟨"x", 1, 2⟩, ⟨"y", 5/2, 3⟩] ["x y"] ["x y"] (by decide)
    ⟨"x y", 1, 3, [⟨"x", 1, 2⟩, ⟨"y", 5/2, 3⟩]⟩ (by decide) (by decide)

/-! ### Claim C5 -/

theorem capLong_start (w : Word) : (capLong w).start = w.start := by
  unfold capLong
  split <;> rfl

theorem capLong_short {w : Word} (h : ¬ 3 < w.stop - w.start) : capLong w = w := by
  unfold capLong
  rw [if_neg h]

theorem capLong_cap_fix (a : String) (b : ℚ) :
    capLong ⟨a, b, round2 (b + 3)⟩ = ⟨a, b, round2 (b + 3)⟩ := by
  unfold capLong
  split <;> rfl

theorem capLong_idem (w : Word) : capLong (capLong w) = capLong w := by
  by_cases h : 3 < w.stop - w.start
  · have h1 : capLong w = ⟨w.word, w.start, round2 (w.start + 3)⟩ := by
      unfold capLong
      rw [if_pos h]
    rw [h1, capLong_cap_fix]
  · rw [capLong_short h, capLong_short h]

theorem map_capLong_idem (l : List Word) : (l.map capLong).map capLong = l.map capLong := by
  rw [List.map_map]
  exact List.map_congr_left (fun a _ => capLong_idem a)

theorem map_capLong_id_of_short {l : List Word} (h : ∀ w ∈ l, w.stop - w.start ≤ 3) :
    l.map capLong = l := by
  have h2 : l.map capLong = l.map id := List.map_congr_left (fun a ha => capLong_short (not_lt.2 (h a ha)))
  simpa using h2

theorem pairwise_map_capLong {l : List Word} (h : l.Pairwise wordLE) :
    (l.map capLong).Pairwise wordLE := by
  rw [List.pairwise_map]
  apply h.imp
  intro a b hab
  show (capLong a).start ≤ (capLong b).start
  rw [capLong_start, capLong_start]
  exact hab

theorem enumFrom_fst_ge {α : Type} : ∀ (m : ℕ) (l : List α), ∀ p ∈ List.enumFrom m l, m ≤ p.1 := by
  intro m l
  induction l generalizing m with
  | nil => intro p hp; cases hp
  | cons x xs ih =>
    intro p hp
    rcases List.mem_cons.1 hp with h1 | h2
    · subst h1
      exact le_refl m
    · exact le_trans (Nat.le_succ m) (ih (m+1) p h2)

theorem enumFrom_pairwise_lt {α : Type} : ∀ (m : ℕ) (l : List α),
    (List.enumFrom m l).Pairwise (fun p q => p.1 < q.1) := by
  intro m l
  induction l generalizing m with
  | nil => exact List.Pairwise.nil
  | cons x xs ih =>
    rw [show List.enumFrom m (x :: xs) = (m, x) :: List.enumFrom (m+1) xs from rfl,
      List.pairwise_cons]
    constructor
    · intro q hq
      exact lt_of_lt_of_le (Nat.lt_succ_self m) (enumFrom_fst_ge (m+1) xs q hq)
    · exact ih (m+1)

theorem redistribute_sorted (le actual slot : ℚ) (hslot : 0 ≤ slot) (ws : List Word) :
    (redistribute_words le actual slot ws).Pairwise wordLE := by
  unfold redistribute_words
  rw [List.pairwise_map]
  apply (enumFrom_pairwise_lt 0 ws).imp
  intro p q hpq
  show round2 (actual + (p.1 : ℚ) * slot) ≤ round2 (actual + (q.1 : ℚ) * slot)
  apply round2_le_round2
  have hle : (p.1 : ℚ) ≤ (q.1 : ℚ) := by exact_mod_cast le_of_lt hpq
  nlinarith [hslot]

theorem redistribute_short (le actual slot : ℚ) (ws : List Word) :
    ∀ x ∈ redistribute_words le actual slot ws, x.stop - x.start ≤ 3 := by
  intro x hx
  unfold redistribute_words at hx
  rw [List.mem_map] at hx
  obtain ⟨p, _, rfl⟩ := hx
  show min (round2 (round2 (actual + (p.1 : ℚ) * slot) + min (slot * (9/10)) 3)) le -
      round2 (actual + (p.1 : ℚ) * slot) ≤ 3
  have hts : twoDec (round2 (actual + (p.1 : ℚ) * slot)) := twoDec_round2 _
  have h1 : round2 (round2 (actual + (p.1 : ℚ) * slot) + min (slot * (9/10)) 3) =
      round2 (actual + (p.1 : ℚ) * slot) + round2 (min (slot * (9/10)) 3) := round2_add_twoDec hts _
  have h2 : round2 (min (slot * (9/10)) 3) ≤ 3 := by
    calc round2 (min (slot * (9/10)) 3) ≤ round2 3 := round2_le_round2 (min_le_right _ _)
      _ = 3 := by decide
  calc min (round2 (round2 (actual + (p.1 : ℚ) * slot) + min (slot * (9/10)) 3)) le -
      round2 (actual + (p.1 : ℚ) * slot) ≤
      round2 (round2 (actual + (p.1 : ℚ) * slot) + min (slot * (9/10)) 3) -
      round2 (actual + (p.1 : ℚ) * slot) := sub_le_sub_right (min_le_left _ _) _
    _ ≤ 3 := by rw [h1]; linarith

theorem redistribute_length (le actual slot : ℚ) (ws : List Word) :
    (redistribute_words le actual slot ws).length = ws.length := by
  unfold redistribute_words
  rw [List.length_map, List.enum_length]

theorem sanitize_words_eq3 (ls le : ℚ) (a b : Word) (l : List Word) :
    sanitize_words ls le (a :: b :: l) =
      if 3 < a.stop - a.start then
        if (le - ls) * (1/2) < b.start - ls then
          redistribute_words le (actual_start ls b.start)
            ((le - actual_start ls b.start) / (((a :: b :: l).length : ℕ) : ℚ)) (a :: b :: l)
        else (⟨a.word, a.start, round2 (a.start + 3)⟩ :: b :: l).map capLong
      else (a :: b :: l).map capLong := rfl

theorem sanitize_segment_eq (s : Segment) (hne : s.words ≠ []) (hd : ¬ (s.stop - s.start ≤ 0)) :
    sanitize_segment s = ⟨s.text, s.start, s.stop,
      sanitize_words s.start s.stop (s.words.insertionSort wordLE)⟩ := by
  unfold sanitize_segment
  rw [if_neg hne, if_neg hd]

theorem sanitize_fixed {t : String} {ls le : ℚ} {W : List Word} (hne : W ≠ [])
    (hd : ¬ (le - ls ≤ 0)) (hsorted : W.Pairwise wordLE)
    (hW : sanitize_words ls le W = W) :
    sanitize_segment ⟨t, ls, le, W⟩ = ⟨t, ls, le, W⟩ := by
  rw [sanitize_segment_eq ⟨t, ls, le, W⟩ hne hd]
  show (⟨t, ls, le, sanitize_words ls le (W.insertionSort wordLE)⟩ : Segment) = _
  rw [List.Sorted.insertionSort_eq hsorted, hW]

theorem sanitize_segment_idem (s : Segment) (hyp : ∀ w ∈ s.words, w.start ≤ s.stop) :
    sanitize_segment (sanitize_segment s) = sanitize_segment s := by
  by_cases hne : s.words = []
  · have h1 : sanitize_segment s = s := by
      unfold sanitize_segment
      rw [if_pos hne]
    rw [h1, h1]
  by_cases hd : s.stop - s.start ≤ 0
  · have h1 : sanitize_segment s = s := by
      unfold sanitize_segment
      rw [if_neg hne, if_pos hd]
    rw [h1, h1]
  have heq := sanitize_segment_eq s hne hd
  have hsorted0 : (s.words.insertionSort wordLE).Pairwise wordLE :=
    List.sorted_insertionSort wordLE s.words
  have hmem0 : ∀ w ∈ s.words.insertionSort wordLE, w.start ≤ s.stop :=
    fun w hw => hyp w ((List.mem_insertionSort wordLE).1 hw)
  rcases hsort : s.words.insertionSort wordLE with _ | ⟨w0, _ | ⟨second, rest⟩⟩
  · exfalso
    apply hne
    have hlen := List.length_insertionSort wordLE s.words
    rw [hsort] at hlen
    exact List.length_eq_zero.1 hlen.symm
  · rw [heq, hsort]
    show sanitize_segment ⟨s.text, s.start, s.stop, [capLong w0]⟩ = _
    apply sanitize_fixed (by simp) hd (by simp)
    show [capLong (capLong w0)] = [capLong w0]
    rw [capLong_idem]
  · rw [hsort] at hsorted0 hmem0
    rw [heq, hsort, sanitize_words_eq3]
    by_cases h3 : 3 < w0.stop - w0.start
    · by_cases hgap : (s.stop - s.start) * (1/2) < second.start - s.start
      · rw [if_pos h3, if_pos hgap]
        have hsec : second.start ≤ s.stop := hmem0 second (by simp)
        have hge : s.start ≤ actual_start s.start second.start := le_max_right _ _
        have hle2 : actual_start s.start second.start ≤ s.stop :=
          max_le (by linarith) (by linarith)
        have hn : (0 : ℚ) < (((w0 :: second :: rest).length : ℕ) : ℚ) := by
          exact_mod_cast Nat.succ_pos (second :: rest).length
        have hslot : (0 : ℚ) ≤
            (s.stop - actual_start s.start second.start) / (((w0 :: second :: rest).length : ℕ) : ℚ) :=
          div_nonneg (by linarith) (le_of_lt hn)
        have hWne : redistribute_words s.stop (actual_start s.start second.start)
            ((s.stop - actual_start s.start second.start) / (((w0 :: second :: rest).length : ℕ) : ℚ))
            (w0 :: second :: rest) ≠ [] := by
          apply List.ne_nil_of_length_pos
          rw [redistribute_length]
          simp
        apply sanitize_fixed hWne hd (redistribute_sorted _ _ _ hslot _)
        obtain ⟨a, W1, ha⟩ := List.exists_cons_of_ne_nil hWne
        have hW1ne : W1 ≠ [] := by
          intro hcon
          have := redistribute_length s.stop (actual_start s.start second.start)
            ((s.stop - actual_start s.start second.start) / (((w0 :: second :: rest).length : ℕ) : ℚ))
            (w0 :: second :: rest)
          rw [ha, hcon] at this
          simp at this
        obtain ⟨b, W2, hb⟩ := List.exists_cons_of_ne_nil hW1ne
        have hshort := redistribute_short s.stop (actual_start s.start second.start)
          ((s.stop - actual_start s.start second.start) / (((w0 :: second :: rest).length : ℕ) : ℚ))
          (w0 :: second :: rest)
        rw [ha, hb, sanitize_words_eq3, if_neg (not_lt.2 (hshort a (by rw [ha, hb]; simp)))]
        rw [← hb, ← ha]
        exact map_capLong_id_of_short hshort
      · rw [if_pos h3, if_neg hgap]
        have hWdef : (((⟨w0.word, w0.start, round2 (w0.start + 3)⟩ : Word) :: second :: rest).map capLong) =
            (⟨w0.word, w0.start, round2 (w0.start + 3)⟩ : Word) :: capLong second :: rest.map capLong := by
          rw [List.map_cons, List.map_cons, capLong_cap_fix]
        have hsortW : (((⟨w0.word, w0.start, round2 (w0.start + 3)⟩ : Word) :: second :: rest).map capLong).Pairwise wordLE := by
          apply pairwise_map_capLong
          rw [List.pairwise_cons]
          constructor
          · intro y hy
            exact (List.pairwise_cons.1 hsorted0).1 y hy
          · exact (List.pairwise_cons.1 hsorted0).2
        apply sanitize_fixed (by simp) hd hsortW
        rw [hWdef, sanitize_words_eq3]
        by_cases h3' : 3 < (⟨w0.word, w0.start, round2 (w0.start + 3)⟩ : Word).stop -
            (⟨w0.word, w0.start, round2 (w0.start + 3)⟩ : Word).start
        · rw [if_pos h3']
          have hc2 : ¬ ((s.stop - s.start) * (1/2) < (capLong second).start - s.start) := by
            rw [capLong_start]
            exact hgap
          rw [if_neg hc2]
          rw [show (⟨(⟨w0.word, w0.start, round2 (w0.start + 3)⟩ : Word).word,
              (⟨w0.word, w0.start, round2 (w0.start + 3)⟩ : Word).start,
              round2 ((⟨w0.word, w0.start, round2 (w0.start + 3)⟩ : Word).start + 3)⟩ : Word) =
            (⟨w0.word, w0.start, round2 (w0.start + 3)⟩ : Word) from rfl]
          rw [← hWdef]
          exact map_capLong_idem _
        · rw [if_neg h3', ← hWdef]
          exact map_capLong_idem _
    · rw [if_neg h3]
      have hWdef : ((w0 :: second :: rest).map capLong) =
          capLong w0 :: capLong second :: rest.map capLong := by
        rw [List.map_cons, List.map_cons]
      apply sanitize_fixed (by simp) hd (pairwise_map_capLong hsorted0)
      rw [hWdef, sanitize_words_eq3]
      have hc : ¬ 3 < (capLong w0).stop - (capLong w0).start := by
        rw [capLong_short h3]
        exact h3
      rw [if_neg hc, ← hWdef]
      exact map_capLong_idem _

/-- Claim C5 (amended): `_sanitize_word_timestamps` is idempotent on every
segment list in which no word starts after its segment's end (so the
redistribution slot cannot be negative); the counterexample shows
idempotence fails without this. -/
theorem C5_amended (lyrics : List Segment)
    (hyp : ∀ seg ∈ lyrics, ∀ w ∈ seg.words, w.start ≤ seg.stop) :
    sanitize_word_timestamps (sanitize_word_timestamps lyrics) =
      sanitize_word_timestamps lyrics := by
  unfold sanitize_word_timestamps
  rw [List.map_map]
  apply List.map_congr_left
  intro s hs
  exact sanitize_segment_idem s (hyp s hs)

/-- Witness for C5 at a concrete in-bounds list (the bunched-cap segment of
scenario-like shape). -/
theorem C5_witness :
    sanitize_word_timestamps (sanitize_word_timestamps
        [⟨"s", 0, 10, [⟨"a", 0, 4⟩, ⟨"b", 9, 19/2⟩]⟩]) =
      sanitize_word_timestamps [⟨"s", 0, 10, [⟨"a", 0, 4⟩, ⟨"b", 9, 19/2⟩]⟩] :=
  C5_amended [⟨"s", 0, 10, [⟨"a", 0, 4⟩, ⟨"b", 9, 19/2⟩]⟩] (by decide)

/-! ### Claim C1: structure of the expanded sequence -/

theorem ctc_expanded_cons (x : ℕ) (xs : List ℕ) (blank_id : ℕ) :
    ctc_expanded (x :: xs) blank_id = blank_id :: x :: ctc_expanded xs blank_id := rfl

theorem ctc_expanded_length (targets : List ℕ) (blank_id : ℕ) :
    (ctc_expanded targets blank_id).length = 2 * targets.length + 1 := by
  induction targets with
  | nil => rfl
  | cons x xs ih =>
    rw [ctc_expanded_cons]
    simp only [List.length_cons, ih]
    omega

theorem ctc_expanded_even (targets : List ℕ) (blank_id : ℕ) :
    ∀ k, 2 * k < (ctc_expanded targets blank_id).length →
      (ctc_expanded targets blank_id).getD (2 * k) 0 = blank_id := by
  induction targets with
  | nil =>
    intro k hk
    rw [ctc_expanded_length] at hk
    simp only [List.length_nil] at hk
    have hk0 : k = 0 := by omega
    subst hk0
    rfl
  | cons x xs ih =>
    intro k hk
    cases k with
    | zero => rfl
    | succ k' =>
      rw [ctc_expanded_cons]
      rw [show 2 * (k' + 1) = 2 * k' + 1 + 1 by omega]
      rw [List.getD_cons_succ, List.getD_cons_succ]
      apply ih
      rw [ctc_expanded_cons] at hk
      simp only [List.length_cons] at hk
      omega

theorem ctc_expanded_even_mod {targets : List ℕ} {blank_id : ℕ} {s : ℕ}
    (hs : s < (ctc_expanded targets blank_id).length) (he : s % 2 = 0) :
    (ctc_expanded targets blank_id).getD s 0 = blank_id := by
  have h2 : s = 2 * (s / 2) := by omega
  rw [h2]
  exact ctc_expanded_even targets blank_id (s / 2) (by omega)

/-! ### Claim C1: transition maximum -/

theorem ctc_prevmax_ge_s (a b c : ℚ) (g1 g2 : Prop) [Decidable g1] [Decidable g2] :
    a ≤ ctc_prevmax a b c g1 g2 := by
  unfold ctc_prevmax
  split
  · split
    · exact le_trans (le_max_left a b) (le_max_left _ c)
    · exact le_max_left a c
  · split
    · exact le_max_left a b
    · exact le_refl a

theorem ctc_prevmax_ge_sm1 (a b c : ℚ) (g1 g2 : Prop) [Decidable g1] [Decidable g2]
    (hg1 : g1) : b ≤ ctc_prevmax a b c g1 g2 := by
  unfold ctc_prevmax
  simp only [if_pos hg1]
  split
  · exact le_trans (le_max_right a b) (le_max_left _ c)
  · exact le_max_right a b

theorem ctc_prevmax_ge_sm2 (a b c : ℚ) (g1 g2 : Prop) [Decidable g1] [Decidable g2]
    (hg2 : g2) : c ≤ ctc_prevmax a b c g1 g2 := by
  unfold ctc_prevmax
  rw [if_pos hg2]
  exact le_max_right _ c

theorem ctc_prevmax_le (a b c : ℚ) (g1 g2 : Prop) [Decidable g1] [Decidable g2] (M : ℚ)
    (h1 : a ≤ M) (h2 : g1 → b ≤ M) (h3 : g2 → c ≤ M) :
    ctc_prevmax a b c g1 g2 ≤ M := by
  unfold ctc_prevmax
  split
  · rename_i hg2
    apply max_le _ (h3 hg2)
    split
    · rename_i hg1
      exact max_le h1 (h2 hg1)
    · exact h1
  · split
    · rename_i hg1
      exact max_le h1 (h2 hg1)
    · exact h1

/-! ### Claim C1: reachability and the sentinel separation -/

theorem ctc_reach_of_le (expanded : List ℕ) : ∀ (t s : ℕ), s ≤ t + 1 → ctc_reach expanded t s := by
  intro t
  induction t with
  | zero =>
    intro s hs
    unfold ctc_reach
    omega
  | succ t ih =>
    intro s hs
    by_cases h : s ≤ t + 1
    · exact Or.inl (ih s h)
    · refine Or.inr (Or.inl ⟨by omega, ?_⟩)
      exact ih (s - 1) (by omega)

theorem ctc_alpha_tainted (lp : ℕ → ℕ → ℚ) (expanded : List ℕ)
    (hlp : ∀ t c, lp t c ≤ 0) :
    ∀ (t s : ℕ), ¬ ctc_reach expanded t s → ctc_alpha lp expanded t s ≤ NEG_INF := by
  intro t
  induction t with
  | zero =>
    intro s hs
    unfold ctc_reach at hs
    push_neg at hs
    unfold ctc_alpha
    rw [if_neg hs.1, if_neg (by intro hcon; exact hs.2 hcon.1)]
  | succ t ih =>
    intro s hs
    unfold ctc_alpha
    split
    · have h1 : ¬ ctc_reach expanded t s := fun h => hs (Or.inl h)
      have h2 : 0 < s → ¬ ctc_reach expanded t (s-1) :=
        fun h0 h => hs (Or.inr (Or.inl ⟨h0, h⟩))
      have h3 : (1 < s ∧ expanded.getD s 0 ≠ expanded.getD (s-2) 0) →
          ¬ ctc_reach expanded t (s-2) :=
        fun hg h => hs (Or.inr (Or.inr ⟨hg.1, hg.2, h⟩))
      have hm := ctc_prevmax_le (ctc_alpha lp expanded t s) (ctc_alpha lp expanded t (s-1))
        (ctc_alpha lp expanded t (s-2)) (0 < s)
        (1 < s ∧ expanded.getD s 0 ≠ expanded.getD (s-2) 0) NEG_INF
        (ih s h1) (fun hg => ih _ (h2 hg)) (fun hg => ih _ (h3 hg))
      have hl := hlp (t+1) (expanded.getD s 0)
      linarith
    · exact le_refl NEG_INF

theorem ctc_alpha_untainted (lp : ℕ → ℕ → ℚ) (expanded : List ℕ) (B : ℚ)
    (hlp : ∀ t c, -B ≤ lp t c) (hL : 1 < expanded.length) :
    ∀ (t s : ℕ), s < expanded.length → ctc_reach expanded t s →
      -(((t+1 : ℕ) : ℚ) * B) ≤ ctc_alpha lp expanded t s := by
  intro t
  induction t with
  | zero =>
    intro s hs hr
    unfold ctc_reach at hr
    unfold ctc_alpha
    rcases hr with h0 | h1
    · subst h0
      rw [if_pos rfl]
      have := hlp 0 (expanded.getD 0 0)
      push_cast
      linarith
    · subst h1
      rw [if_neg (by omega), if_pos ⟨rfl, hL⟩]
      have := hlp 0 (expanded.getD 1 0)
      push_cast
      linarith
  | succ t ih =>
    intro s hs hr
    unfold ctc_reach at hr
    unfold ctc_alpha
    rw [if_pos hs]
    rw [show -(((t+1+1 : ℕ) : ℚ) * B) = -(((t+1 : ℕ) : ℚ) * B) + (-B) by push_cast; ring]
    apply add_le_add
    · rcases hr with h | ⟨h0, h⟩ | ⟨h1, hne, h⟩
      · exact le_trans (ih s hs h) (ctc_prevmax_ge_s ..)
      · exact le_trans (ih (s-1) (by omega) h) (ctc_prevmax_ge_sm1 _ _ _ _ _ h0)
      · exact le_trans (ih (s-2) (by omega) h) (ctc_prevmax_ge_sm2 _ _ _ _ _ ⟨h1, hne⟩)
    · exact hlp (t+1) _

/-! ### Claim C1: backtracking -/

theorem ctc_pick1_le (lp : ℕ → ℕ → ℚ) (expanded : List ℕ) (t s : ℕ) :
    ctc_pick1 lp expanded t s ≤ s := by
  unfold ctc_pick1
  split
  · omega
  · exact le_refl s

theorem ctc_pick1_ge_s (lp : ℕ → ℕ → ℚ) (expanded : List ℕ) (t s : ℕ) :
    ctc_alpha lp expanded t s ≤ ctc_alpha lp expanded t (ctc_pick1 lp expanded t s) := by
  unfold ctc_pick1
  split
  · rename_i h
    exact le_of_lt h.2
  · exact le_refl _

theorem ctc_pick1_ge_sm1 (lp : ℕ → ℕ → ℚ) (expanded : List ℕ) (t s : ℕ) (h0 : 0 < s) :
    ctc_alpha lp expanded t (s-1) ≤ ctc_alpha lp expanded t (ctc_pick1 lp expanded t s) := by
  unfold ctc_pick1
  split
  · exact le_refl _
  · rename_i h
    push_neg at h
    exact h h0

theorem ctc_back_step_cases (lp : ℕ → ℕ → ℚ) (expanded : List ℕ) (t s : ℕ) :
    ctc_back_step lp expanded t s = s ∨
      (0 < s ∧ ctc_back_step lp expanded t s = s - 1) ∨
      (1 < s ∧ expanded.getD s 0 ≠ expanded.getD (s-2) 0 ∧
        ctc_back_step lp expanded t s = s - 2) := by
  unfold ctc_back_step
  split
  · rename_i h
    exact Or.inr (Or.inr ⟨h.1, h.2.1, rfl⟩)
  · unfold ctc_pick1
    split
    · rename_i h
      exact Or.inr (Or.inl ⟨h.1, rfl⟩)
    · exact Or.inl rfl

theorem ctc_back_step_le (lp : ℕ → ℕ → ℚ) (expanded : List ℕ) (t s : ℕ) :
    ctc_back_step lp expanded t s ≤ s := by
  rcases ctc_back_step_cases lp expanded t s with h | ⟨_, h⟩ | ⟨_, _, h⟩ <;> omega

theorem ctc_back_step_ge_s (lp : ℕ → ℕ → ℚ) (expanded : List ℕ) (t s : ℕ) :
    ctc_alpha lp expanded t s ≤ ctc_alpha lp expanded t (ctc_back_step lp expanded t s) := by
  unfold ctc_back_step
  split
  · rename_i h
    exact le_trans (ctc_pick1_ge_s lp expanded t s) (le_of_lt h.2.2)
  · exact ctc_pick1_ge_s lp expanded t s

theorem ctc_back_step_ge_sm1 (lp : ℕ → ℕ → ℚ) (expanded : List ℕ) (t s : ℕ) (h0 : 0 < s) :
    ctc_alpha lp expanded t (s-1) ≤ ctc_alpha lp expanded t (ctc_back_step lp expanded t s) := by
  unfold ctc_back_step
  split
  · rename_i h
    exact le_trans (ctc_pick1_ge_sm1 lp expanded t s h0) (le_of_lt h.2.2)
  · exact ctc_pick1_ge_sm1 lp expanded t s h0

theorem ctc_back_step_ge_sm2 (lp : ℕ → ℕ → ℚ) (expanded : List ℕ) (t s : ℕ)
    (h1 : 1 < s) (hne : expanded.getD s 0 ≠ expanded.getD (s-2) 0) :
    ctc_alpha lp expanded t (s-2) ≤ ctc_alpha lp expanded t (ctc_back_step lp expanded t s) := by
  unfold ctc_back_step
  split
  · exact le_refl _
  · rename_i h
    push_neg at h
    exact h h1 hne

/-- The descent step: a reachable state backtracks to a reachable state,
provided the sentinel stays separated from every genuine path score. -/
theorem ctc_back_step_reach (lp : ℕ → ℕ → ℚ) (expanded : List ℕ) (B : ℚ) (T : ℕ)
    (hlp0 : ∀ t c, lp t c ≤ 0) (hlpB : ∀ t c, -B ≤ lp t c) (hL : 1 < expanded.length)
    (hB0 : 0 ≤ B) (hsep : (T : ℚ) * B < 10^30) (t s : ℕ)
    (ht : t + 2 ≤ T) (hs : s < expanded.length) (hr : ctc_reach expanded (t+1) s) :
    ctc_reach expanded t (ctc_back_step lp expanded t s) := by
  have hsep2 : NEG_INF < -(((t+1 : ℕ) : ℚ) * B) := by
    have hcast : ((t+1 : ℕ) : ℚ) ≤ (T : ℚ) := by exact_mod_cast Nat.le_of_lt_succ (by omega)
    have := mul_le_mul_of_nonneg_right hcast hB0
    unfold NEG_INF
    nlinarith
  have key : ∃ r, r < expanded.length ∧ ctc_reach expanded t r ∧
      ctc_alpha lp expanded t r ≤ ctc_alpha lp expanded t (ctc_back_step lp expanded t s) := by
    unfold ctc_reach at hr
    rcases hr with h | ⟨h0, h⟩ | ⟨h1, hne, h⟩
    · exact ⟨s, hs, h, ctc_back_step_ge_s lp expanded t s⟩
    · exact ⟨s - 1, by omega, h, ctc_back_step_ge_sm1 lp expanded t s h0⟩
    · exact ⟨s - 2, by omega, h, ctc_back_step_ge_sm2 lp expanded t s h1 hne⟩
  obtain ⟨r, hrL, hrr, hle⟩ := key
  by_contra hcon
  have htaint := ctc_alpha_tainted lp expanded hlp0 t _ hcon
  have hlow := ctc_alpha_untainted lp expanded B hlpB hL t r hrL hrr
  linarith

/-! ### Claim C1: the backtracked path -/

theorem ctc_best_s_cases (lp : ℕ → ℕ → ℚ) (expanded : List ℕ) (T : ℕ) :
    ctc_best_s lp expanded T = expanded.length - 1 ∨
      ctc_best_s lp expanded T = expanded.length - 2 := by
  unfold ctc_best_s
  split
  · exact Or.inl rfl
  · exact Or.inr rfl

theorem ctc_state_reach (lp : ℕ → ℕ → ℚ) (expanded : List ℕ) (B : ℚ) (T : ℕ)
    (hlp0 : ∀ t c, lp t c ≤ 0) (hlpB : ∀ t c, -B ≤ lp t c) (hL : 1 < expanded.length)
    (hB0 : 0 ≤ B) (hsep : (T : ℚ) * B < 10^30)
    (hLT : expanded.length - 1 ≤ T - 1) :
    ∀ k, k ≤ T - 1 → ctc_reach expanded (T - 1 - k) (ctc_state lp expanded T k) ∧
      ctc_state lp expanded T k < expanded.length := by
  intro k
  induction k with
  | zero =>
    intro _
    constructor
    · show ctc_reach expanded (T - 1 - 0) (ctc_best_s lp expanded T)
      have hb : ctc_best_s lp expanded T ≤ expanded.length - 1 := by
        rcases ctc_best_s_cases lp expanded T with h | h <;> omega
      apply ctc_reach_of_le
      omega
    · show ctc_best_s lp expanded T < expanded.length
      rcases ctc_best_s_cases lp expanded T with h | h <;> omega
  | succ k ih =>
    intro hk1
    obtain ⟨hr, hlt⟩ := ih (by omega)
    have hframe : T - 1 - k = (T - 2 - k) + 1 := by omega
    rw [hframe] at hr
    have hres := ctc_back_step_reach lp expanded B T hlp0 hlpB hL hB0 hsep (T - 2 - k) _
      (by omega) hlt hr
    constructor
    · show ctc_reach expanded (T - 1 - (k+1))
        (ctc_back_step lp expanded (T - 2 - k) (ctc_state lp expanded T k))
      rw [show T - 1 - (k+1) = T - 2 - k by omega]
      exact hres
    · exact lt_of_le_of_lt (ctc_back_step_le ..) hlt

theorem ctc_path_back (lp : ℕ → ℕ → ℚ) (expanded : List ℕ) (T : ℕ) (t : ℕ)
    (ht : t + 1 ≤ T - 1) (hT : 1 ≤ T) :
    ctc_state lp expanded T (T - 1 - t) =
      ctc_back_step lp expanded t (ctc_state lp expanded T (T - 1 - (t+1))) := by
  have h1 : T - 1 - t = (T - 2 - t) + 1 := by omega
  have h2 : T - 1 - (t + 1) = T - 2 - t := by omega
  rw [h1, h2]
  show ctc_back_step lp expanded (T - 2 - (T - 2 - t)) (ctc_state lp expanded T (T - 2 - t)) = _
  rw [show T - 2 - (T - 2 - t) = t by omega]

theorem ctc_path_rel (lp : ℕ → ℕ → ℚ) (targets : List ℕ) (blank_id : ℕ) (T : ℕ)
    (hq1 : ∀ u, u ≤ T - 1 →
      ctc_state lp (ctc_expanded targets blank_id) T (T - 1 - u) <
        (ctc_expanded targets blank_id).length)
    (t : ℕ) (ht : t + 1 ≤ T - 1) (hT : 1 ≤ T) :
    ctc_state lp (ctc_expanded targets blank_id) T (T - 1 - t) ≤
      ctc_state lp (ctc_expanded targets blank_id) T (T - 1 - (t+1)) ∧
    ctc_state lp (ctc_expanded targets blank_id) T (T - 1 - (t+1)) ≤
      ctc_state lp (ctc_expanded targets blank_id) T (T - 1 - t) + 2 ∧
    (ctc_state lp (ctc_expanded targets blank_id) T (T - 1 - (t+1)) =
        ctc_state lp (ctc_expanded targets blank_id) T (T - 1 - t) + 2 →
      ctc_state lp (ctc_expanded targets blank_id) T (T - 1 - (t+1)) % 2 = 1) := by
  have hback := ctc_path_back lp (ctc_expanded targets blank_id) T t ht hT
  rcases ctc_back_step_cases lp (ctc_expanded targets blank_id) t
      (ctc_state lp (ctc_expanded targets blank_id) T (T - 1 - (t+1))) with h | ⟨h0, h⟩ | ⟨h1, hne, h⟩
  · rw [hback, h]
    exact ⟨le_refl _, by omega, by omega⟩
  · rw [hback, h]
    refine ⟨by omega, by omega, ?_⟩
    intro hcon
    omega
  · rw [hback, h]
    refine ⟨by omega, by omega, ?_⟩
    intro _
    have hsL := hq1 (t+1) (by omega)
    rcases Nat.mod_two_eq_zero_or_one
        (ctc_state lp (ctc_expanded targets blank_id) T (T - 1 - (t+1))) with he | ho
    · exfalso
      apply hne
      rw [ctc_expanded_even_mod hsL he,
        ctc_expanded_even_mod (lt_of_le_of_lt (by omega) hsL) (by omega)]
    · exact ho

/-! ### Claim C1: the extraction loop -/

theorem extract_step_even_none (acc : List CtcEntry) (sf t s : ℕ) (hs : s % 2 = 0) :
    ctc_extract_step (acc, none, sf) (t, s) = (acc, none, sf) := by
  simp [ctc_extract_step, hs]

theorem extract_step_even_evencur (acc : List CtcEntry) (c sf t s : ℕ)
    (hs : s % 2 = 0) (hc : c % 2 = 0) :
    ctc_extract_step (acc, some c, sf) (t, s) = (acc, some c, sf) := by
  simp [ctc_extract_step, hs, hc]

theorem extract_step_even_oddcur (acc : List CtcEntry) (c sf t s : ℕ)
    (hs : s % 2 = 0) (hc : c % 2 = 1) :
    ctc_extract_step (acc, some c, sf) (t, s) = (acc ++ [⟨c / 2, sf, t - 1⟩], some s, sf) := by
  simp [ctc_extract_step, hs, hc]

theorem extract_step_odd_same (acc : List CtcEntry) (c sf t s : ℕ)
    (hs : s % 2 = 1) (heq : c = s) :
    ctc_extract_step (acc, some c, sf) (t, s) = (acc, some c, sf) := by
  simp [ctc_extract_step, hs, heq]

theorem extract_step_odd_none (acc : List CtcEntry) (sf t s : ℕ) (hs : s % 2 = 1) :
    ctc_extract_step (acc, none, sf) (t, s) = (acc, some s, t) := by
  simp [ctc_extract_step, hs]

theorem extract_step_odd_evencur (acc : List CtcEntry) (c sf t s : ℕ)
    (hs : s % 2 = 1) (hc : c % 2 = 0) :
    ctc_extract_step (acc, some c, sf) (t, s) = (acc, some s, t) := by
  have hne : c ≠ s := by omega
  simp [ctc_extract_step, hs, hc, hne]

theorem extract_step_odd_oddcur (acc : List CtcEntry) (c sf t s : ℕ)
    (hs : s % 2 = 1) (hc : c % 2 = 1) (hne : c ≠ s) :
    ctc_extract_step (acc, some c, sf) (t, s) = (acc ++ [⟨c / 2, sf, t - 1⟩], some s, t) := by
  simp [ctc_extract_step, hs, hc, hne]

theorem ctcExtSt_succ (q : ℕ → ℕ) (m : ℕ) :
    ctcExtSt q (m+1) = ctc_extract_step (ctcExtSt q m) (m, q m) := by
  unfold ctcExtSt
  rw [List.range_succ, List.map_append, List.foldl_append]
  rfl

theorem entries_append (acc : List CtcEntry) (e : CtcEntry)
    (htok : acc.map CtcEntry.tok = List.range acc.length)
    (hwf : ∀ x ∈ acc, x.startF ≤ x.stopF)
    (hpw : acc.Pairwise (fun a b => a.stopF < b.startF))
    (hetok : e.tok = acc.length) (hewf : e.startF ≤ e.stopF)
    (hsepa : ∀ x ∈ acc, x.stopF < e.startF) :
    (acc ++ [e]).map CtcEntry.tok = List.range (acc ++ [e]).length ∧
    (∀ x ∈ acc ++ [e], x.startF ≤ x.stopF) ∧
    (acc ++ [e]).Pairwise (fun a b => a.stopF < b.startF) := by
  refine ⟨?_, ?_, ?_⟩
  · rw [List.map_append, List.length_append]
    simp only [List.map_cons, List.map_nil, List.length_singleton]
    rw [htok, hetok, List.range_succ]
  · intro x hx
    rcases List.mem_append.1 hx with h | h
    · exact hwf x h
    · rw [List.mem_singleton] at h
      subst h
      exact hewf
  · rw [List.pairwise_append]
    refine ⟨hpw, by simp, ?_⟩
    intro a ha b hb
    rw [List.mem_singleton] at hb
    subst hb
    exact hsepa a ha

theorem ctc_extract_inv (q : ℕ → ℕ) (T : ℕ)
    (h0 : q 0 = 0 ∨ q 0 = 1)
    (hstep : ∀ t, t + 1 ≤ T - 1 →
      q t ≤ q (t+1) ∧ q (t+1) ≤ q t + 2 ∧ (q (t+1) = q t + 2 → q (t+1) % 2 = 1)) :
    ∀ m, 1 ≤ m → m ≤ T → ctcInv q m (ctcExtSt q m) := by
  intro m
  induction m with
  | zero => intro h1 _; omega
  | succ m ih =>
    intro _ hmT
    rcases Nat.eq_zero_or_pos m with hm0 | hmpos
    · subst hm0
      have hbase : ctcExtSt q 1 = ctc_extract_step ([], none, 0) (0, q 0) := rfl
      rcases h0 with h | h
      · rw [hbase, h, extract_step_even_none [] 0 0 0 (by decide)]
        unfold ctcInv
        refine ⟨rfl, by simp, by simp, ?_⟩
        simp only [Nat.add_sub_cancel, h]
        rw [if_neg (by decide)]
        refine ⟨?_, ?_, ?_⟩ <;> simp
      · rw [hbase, h, extract_step_odd_none [] 0 0 1 (by decide)]
        unfold ctcInv
        refine ⟨rfl, by simp, by simp, ?_⟩
        simp only [Nat.add_sub_cancel, h]
        rw [if_pos (by decide)]
        refine ⟨?_, ?_, ?_, ?_⟩ <;> simp
    · have hIH := ih (by omega) (by omega)
      have hrel : q (m-1) ≤ q m ∧ q m ≤ q (m-1) + 2 ∧ (q m = q (m-1) + 2 → q m % 2 = 1) := by
        have h2 := hstep (m-1) (by omega)
        rwa [show m - 1 + 1 = m by omega] at h2
      rw [ctcExtSt_succ]
      unfold ctcInv at hIH
      obtain ⟨htok, hwf, hpw, hbr⟩ := hIH
      unfold ctcInv
      simp only [Nat.add_sub_cancel]
      rcases Nat.mod_two_eq_zero_or_one (q (m-1)) with hpar | hpar
      · rw [if_neg (by omega)] at hbr
        obtain ⟨hcur, hlen, hends⟩ := hbr
        have hcases : q m = q (m-1) ∨ q m = q (m-1) + 1 ∨ q m = q (m-1) + 2 := by omega
        rcases hcases with hc | hc | hc
        · -- even stay
          rcases hcurv : (ctcExtSt q m).2.1 with _ | c
          · have hsteq2 : ctcExtSt q m = ((ctcExtSt q m).1, none, (ctcExtSt q m).2.2) := by
              rw [← hcurv]
            rw [hsteq2, extract_step_even_none _ _ _ _ (by omega)]
            refine ⟨htok, hwf, hpw, ?_⟩
            rw [if_neg (by omega)]
            refine ⟨fun c hcc => (nomatch hcc), ?_, fun e he => lt_trans (hends e he) (by omega)⟩
            rw [hc]
            exact hlen
          · have hcc : c % 2 = 0 := hcur c hcurv
            have hsteq2 : ctcExtSt q m = ((ctcExtSt q m).1, some c, (ctcExtSt q m).2.2) := by
              rw [← hcurv]
            rw [hsteq2, extract_step_even_evencur _ _ _ _ _ (by omega) hcc]
            refine ⟨htok, hwf, hpw, ?_⟩
            rw [if_neg (by omega)]
            refine ⟨?_, hc ▸ hlen, fun e he => lt_trans (hends e he) (by omega)⟩
            intro c' hc'
            rw [Option.some.injEq] at hc'
            subst hc'
            exact hcc
        · -- even to odd
          have hsodd : q m % 2 = 1 := by omega
          rcases hcurv : (ctcExtSt q m).2.1 with _ | c
          · have hsteq2 : ctcExtSt q m = ((ctcExtSt q m).1, none, (ctcExtSt q m).2.2) := by
              rw [← hcurv]
            rw [hsteq2, extract_step_odd_none _ _ _ _ hsodd]
            refine ⟨htok, hwf, hpw, ?_⟩
            rw [if_pos hsodd]
            refine ⟨rfl, ?_, ?_, fun e he => hends e he⟩
            · rw [hlen]
              omega
            · show m < m + 1
              omega
          · have hcc : c % 2 = 0 := hcur c hcurv
            have hsteq2 : ctcExtSt q m = ((ctcExtSt q m).1, some c, (ctcExtSt q m).2.2) := by
              rw [← hcurv]
            rw [hsteq2, extract_step_odd_evencur _ _ _ _ _ hsodd hcc]
            refine ⟨htok, hwf, hpw, ?_⟩
            rw [if_pos hsodd]
            refine ⟨rfl, ?_, ?_, fun e he => hends e he⟩
            · rw [hlen]
              omega
            · show m < m + 1
              omega
        · -- even +2 impossible
          exfalso
          have := hrel.2.2 hc
          omega
      · rw [if_pos hpar] at hbr
        obtain ⟨hcur, hlen, hsf, hends⟩ := hbr
        have hcases : q m = q (m-1) ∨ q m = q (m-1) + 1 ∨ q m = q (m-1) + 2 := by omega
        rcases hcases with hc | hc | hc
        · -- odd stay
          have hsteq2 : ctcExtSt q m = ((ctcExtSt q m).1, some (q (m-1)), (ctcExtSt q m).2.2) := by
            rw [← hcur]
          rw [hsteq2, extract_step_odd_same _ _ _ _ _ (by omega) hc.symm]
          refine ⟨htok, hwf, hpw, ?_⟩
          rw [if_pos (by omega)]
          refine ⟨by rw [hc], by rw [hlen, hc], ?_, hends⟩
          show (ctcExtSt q m).2.2 < m + 1
          omega
        · -- odd closes on even frame
          have hseven : q m % 2 = 0 := by omega
          have hsteq2 : ctcExtSt q m = ((ctcExtSt q m).1, some (q (m-1)), (ctcExtSt q m).2.2) := by
            rw [← hcur]
          rw [hsteq2, extract_step_even_oddcur _ _ _ _ _ hseven hpar]
          have happ := entries_append (ctcExtSt q m).1 ⟨q (m-1) / 2, (ctcExtSt q m).2.2, m - 1⟩
            htok hwf hpw hlen.symm (by show (ctcExtSt q m).2.2 ≤ m - 1; omega)
            (fun x hx => hends x hx)
          refine ⟨happ.1, happ.2.1, happ.2.2, ?_⟩
          rw [if_neg (by omega)]
          refine ⟨?_, ?_, ?_⟩
          · intro c' hc'
            rw [Option.some.injEq] at hc'
            subst hc'
            exact hseven
          · rw [List.length_append]
            simp only [List.length_singleton]
            rw [hlen]
            omega
          · intro e he
            rcases List.mem_append.1 he with h | h
            · have := hends e h
              omega
            · rw [List.mem_singleton] at h
              subst h
              show m - 1 < m + 1
              omega
        · -- odd skips a blank straight to the next odd state
          have hsodd : q m % 2 = 1 := hrel.2.2 hc
          have hne : q (m-1) ≠ q m := by omega
          have hsteq2 : ctcExtSt q m = ((ctcExtSt q m).1, some (q (m-1)), (ctcExtSt q m).2.2) := by
            rw [← hcur]
          rw [hsteq2, extract_step_odd_oddcur _ _ _ _ _ hsodd hpar hne]
          have happ := entries_append (ctcExtSt q m).1 ⟨q (m-1) / 2, (ctcExtSt q m).2.2, m - 1⟩
            htok hwf hpw hlen.symm (by show (ctcExtSt q m).2.2 ≤ m - 1; omega)
            (fun x hx => hends x hx)
          refine ⟨happ.1, happ.2.1, happ.2.2, ?_⟩
          rw [if_pos hsodd]
          refine ⟨rfl, ?_, ?_, ?_⟩
          · rw [List.length_append]
            simp only [List.length_singleton]
            rw [hlen]
            omega
          · show m < m + 1
            omega
          · intro e he
            rcases List.mem_append.1 he with h | h
            · have := hends e h
              show e.stopF < m
              omega
            · rw [List.mem_singleton] at h
              subst h
              show m - 1 < m
              omega

theorem ctc_final_align (q : ℕ → ℕ) (T S : ℕ) (hT : 1 ≤ T)
    (hinv : ctcInv q T (ctcExtSt q T))
    (hlast : q (T-1) = 2*S - 1 ∨ q (T-1) = 2*S) (hS : 1 ≤ S) :
    (ctc_finalize T (ctcExtSt q T)).map CtcEntry.tok = List.range S ∧
    (∀ e ∈ ctc_finalize T (ctcExtSt q T), e.startF ≤ e.stopF) ∧
    (ctc_finalize T (ctcExtSt q T)).Pairwise (fun a b => a.stopF < b.startF) := by
  obtain ⟨htok, hwf, hpw, hbr⟩ := hinv
  rcases hlast with hc | hc
  · have hpar : q (T-1) % 2 = 1 := by omega
    rw [if_pos hpar] at hbr
    obtain ⟨hcur, hlen, hsf, hends⟩ := hbr
    have hfin : ctc_finalize T (ctcExtSt q T) =
        (ctcExtSt q T).1 ++ [⟨q (T-1) / 2, (ctcExtSt q T).2.2, T - 1⟩] := by
      unfold ctc_finalize
      rw [hcur]
      simp [hpar]
    rw [hfin]
    have happ := entries_append (ctcExtSt q T).1 ⟨q (T-1) / 2, (ctcExtSt q T).2.2, T - 1⟩
      htok hwf hpw hlen.symm (by show (ctcExtSt q T).2.2 ≤ T - 1; omega)
      (fun x hx => hends x hx)
    refine ⟨?_, happ.2.1, happ.2.2⟩
    rw [happ.1]
    congr 1
    rw [List.length_append]
    simp only [List.length_singleton]
    omega
  · have hpar : ¬ q (T-1) % 2 = 1 := by omega
    rw [if_neg hpar] at hbr
    obtain ⟨hcur, hlen, hends⟩ := hbr
    have hfin : ctc_finalize T (ctcExtSt q T) = (ctcExtSt q T).1 := by
      unfold ctc_finalize
      rcases hc2 : (ctcExtSt q T).2.1 with _ | c
      · rfl
      · have hcc := hcur c hc2
        simp [hcc]
    rw [hfin]
    refine ⟨?_, hwf, hpw⟩
    rw [htok]
    congr 1
    omega

/-- C1 (corrected): for bounded log-probabilities (each entry in `[-B, 0]`
with `T·B` below the `NEG_INF` sentinel magnitude), a non-empty target list
and `T ≥ 2S+1` frames, `_ctc_forced_align` returns exactly `S` entries
carrying the token indices `0, …, S-1` in order, each with a well-formed
frame range, and the ranges are pairwise disjoint and strictly increasing.
The boundedness hypotheses are needed: the unrestricted claim fails (see the
counterexample), since a `-inf`-like log-probability collides with the
internal sentinel. -/
theorem C1_amended (lp : ℕ → ℕ → ℚ) (T : ℕ) (targets : List ℕ) (blank_id : ℕ) (B : ℚ)
    (hne : targets ≠ []) (hT : 2 * targets.length + 1 ≤ T)
    (hlp : ∀ t c, -B ≤ lp t c ∧ lp t c ≤ 0)
    (hsep : (T : ℚ) * B < 10 ^ 30) :
    (ctc_forced_align lp T targets blank_id).map CtcEntry.tok =
      List.range targets.length ∧
    (∀ e ∈ ctc_forced_align lp T targets blank_id, e.startF ≤ e.stopF) ∧
    (ctc_forced_align lp T targets blank_id).Pairwise
      (fun a b => a.stopF < b.startF) := by
  have hS : 1 ≤ targets.length := List.length_pos.2 hne
  have hL : (ctc_expanded targets blank_id).length = 2 * targets.length + 1 :=
    ctc_expanded_length targets blank_id
  have hL1 : 1 < (ctc_expanded targets blank_id).length := by omega
  have hB0 : 0 ≤ B := by
    have h00 := hlp 0 0
    linarith [h00.1, h00.2]
  have hT1 : 1 ≤ T := by omega
  have hLT : (ctc_expanded targets blank_id).length - 1 ≤ T - 1 := by omega
  have hreach := ctc_state_reach lp (ctc_expanded targets blank_id) B T
    (fun t c => (hlp t c).2) (fun t c => (hlp t c).1) hL1 hB0 hsep hLT
  have hq1 : ∀ u, u ≤ T - 1 →
      ctc_state lp (ctc_expanded targets blank_id) T (T - 1 - u) <
        (ctc_expanded targets blank_id).length := by
    intro u hu
    exact (hreach (T - 1 - u) (by omega)).2
  have h0 : ctc_state lp (ctc_expanded targets blank_id) T (T - 1 - 0) = 0 ∨
      ctc_state lp (ctc_expanded targets blank_id) T (T - 1 - 0) = 1 := by
    have hr := (hreach (T - 1) (le_refl _)).1
    rw [show T - 1 - (T - 1) = 0 by omega] at hr
    rw [Nat.sub_zero]
    exact hr
  have hstep : ∀ t, t + 1 ≤ T - 1 →
      ctc_state lp (ctc_expanded targets blank_id) T (T - 1 - t) ≤
        ctc_state lp (ctc_expanded targets blank_id) T (T - 1 - (t+1)) ∧
      ctc_state lp (ctc_expanded targets blank_id) T (T - 1 - (t+1)) ≤
        ctc_state lp (ctc_expanded targets blank_id) T (T - 1 - t) + 2 ∧
      (ctc_state lp (ctc_expanded targets blank_id) T (T - 1 - (t+1)) =
          ctc_state lp (ctc_expanded targets blank_id) T (T - 1 - t) + 2 →
        ctc_state lp (ctc_expanded targets blank_id) T (T - 1 - (t+1)) % 2 = 1) :=
    fun t ht => ctc_path_rel lp targets blank_id T hq1 t ht hT1
  have hinv := ctc_extract_inv
    (fun u => ctc_state lp (ctc_expanded targets blank_id) T (T - 1 - u)) T
    h0 hstep T (by omega) (le_refl T)
  have hlast : ctc_state lp (ctc_expanded targets blank_id) T (T - 1 - (T - 1)) =
      2 * targets.length - 1 ∨
      ctc_state lp (ctc_expanded targets blank_id) T (T - 1 - (T - 1)) =
        2 * targets.length := by
    rw [show T - 1 - (T - 1) = 0 by omega]
    have hz : ctc_state lp (ctc_expanded targets blank_id) T 0 =
        ctc_best_s lp (ctc_expanded targets blank_id) T := rfl
    rw [hz]
    rcases ctc_best_s_cases lp (ctc_expanded targets blank_id) T with h | h <;>
      rw [h, hL] <;> omega
  have hfin := ctc_final_align
    (fun u => ctc_state lp (ctc_expanded targets blank_id) T (T - 1 - u)) T
    targets.length hT1 hinv hlast hS
  have halign : ctc_forced_align lp T targets blank_id =
      ctc_finalize T
        (ctcExtSt (fun u => ctc_state lp (ctc_expanded targets blank_id) T (T - 1 - u)) T) := by
    unfold ctc_forced_align
    rw [if_neg hne]
    rfl
  rw [halign]
  exact hfin

/-- Witness for C1: a concrete bounded instance (`T = 3`, one target token,
all log-probabilities `-1`, `B = 1`) satisfying every hypothesis of the
amended theorem. -/
theorem C1_witness :
    (ctc_forced_align (fun _ _ => (-1:ℚ)) 3 [1] 0).map CtcEntry.tok = List.range 1 ∧
    (∀ e ∈ ctc_forced_align (fun _ _ => (-1:ℚ)) 3 [1] 0, e.startF ≤ e.stopF) ∧
    (ctc_forced_align (fun _ _ => (-1:ℚ)) 3 [1] 0).Pairwise
      (fun a b => a.stopF < b.startF) :=
  C1_amended (fun _ _ => (-1:ℚ)) 3 [1] 0 1 (by decide) (by decide)
    (fun t c => ⟨by norm_num, by norm_num⟩) (by norm_num)
